import Mathlib

/-!
XMX tiled GEMM kernel and queue factory.

A shallow embedding of `patches/xmx_kernels_fixed.hpp` and
`patches/ggml_sycl_queue_patch.cpp`.

Modelling conventions.

* Machine integers.  `int` values are integers reduced to 32 bits by `wrap32` (two's
  complement; the products `m_idx * K`, `k * N`, `m_idx * N` and the increment
  `k += TK` wrap), `size_t` values are naturals below `2^64`.  Pointer arithmetic
  (`p + a + b`, `p[r*stride + c]`) is done on integers and is not reduced.
* A raw pointer `T *p` is a total map `Int → R` from element offsets (possibly negative)
  to values; the buffer lengths (`M*K`, `K*N`, `M*N`) are facts about the caller, so
  every element access is recorded in a log and bounds are properties of that log.
* The element type `R` only has a zero, an addition and a multiplication; no law is
  assumed in the definitions.  Theorems about exact arithmetic assume a semiring.
* `A`, `B` and `C` do not alias.
* A `joint_matrix` is a map from (row, column) to a value; its shape is supplied to the
  operations that traverse it.
* Two levels of execution.  `kernel_body` is what one cooperative group does when it runs
  the lambda with global id `id`, the `joint_matrix_*` operations having their
  group-level meaning; `run_tiles` runs the bodies of a list of ids one after the other
  (execution per global id).  `xmx_gemm_kernel` is the launch itself: the `nd_range`
  is checked first (an illegal range is refused and nothing runs), and the
  `joint_matrix_*` operations of a sub-group are defined only when all its work-items
  pass the same arguments.
* `q.submit` returns before the command has run; `xmx_gemm_kernel` describes the effect
  of the submitted command once the device has executed it.
-/

namespace Xmx

/-! ## Tile shape (`#define TM 8`, `TN 16`, `TK 16`) -/

def TM : Nat := 8
def TN : Nat := 16
def TK : Nat := 16

/-! ## Machine integers -/

/-- Reduction of an integer to a 32-bit `int` (two's complement). -/
def wrap32 (x : Int) : Int :=
  (x + 2 ^ 31) % 2 ^ 32 - 2 ^ 31

/-- Conversion of a signed integer to the 64-bit unsigned `size_t`. -/
def to_size_t (x : Int) : Nat :=
  (x % 2 ^ 64).toNat

/-- Conversion of a `size_t` value to `int`. -/
def size_t_to_int (n : Nat) : Int :=
  wrap32 ((n % 2 ^ 64 : Nat) : Int)

/-- The values of type `int`. -/
def is_int (x : Int) : Prop :=
  -2 ^ 31 ≤ x ∧ x < 2 ^ 31

instance (x : Int) : Decidable (is_int x) := by
  unfold is_int; infer_instance

/-! ## Memory accesses -/

/-- The three buffers handed to the kernel. -/
inductive Buf where
  | A
  | B
  | C
deriving DecidableEq

/-- One element access: which buffer, whether it is a store, and the element offset
relative to the start of the buffer. -/
structure Access where
  buf : Buf
  isStore : Bool
  idx : Int
deriving DecidableEq

/-- Number of elements of each buffer for shape `(M, N, K)`: `A` is `M×K`, `B` is `K×N`,
`C` is `M×N`, all row-major. -/
def bufLen (M N K : Int) : Buf → Int
  | Buf.A => M * K
  | Buf.B => K * N
  | Buf.C => M * N

/-- An access outside the buffer it addresses. -/
def out_of_bounds (M N K : Int) (a : Access) : Prop :=
  a.idx < 0 ∨ bufLen M N K a.buf ≤ a.idx

instance (M N K : Int) (a : Access) : Decidable (out_of_bounds M N K a) := by
  unfold out_of_bounds; infer_instance

/-! ## `joint_matrix` operations -/

/-- A tile held by one cooperative group. -/
abbrev joint_matrix (R : Type) := Nat → Nat → R

/-- The (row, column) pairs of a `rows × cols` tile, in row-major order. -/
def tile_coords (rows cols : Nat) : List (Nat × Nat) :=
  (List.range rows).flatMap fun r => (List.range cols).map fun c => (r, c)

/-- The element offsets of a `rows × cols` tile that starts at offset `off` of a
row-major buffer with row stride `stride`. -/
def tile_indices (off stride : Int) (rows cols : Nat) : List Int :=
  (tile_coords rows cols).map fun rc => off + rc.1 * stride + rc.2

/-- Model of `joint_matrix_fill(sg, t, v)`: every element of the tile is `v`. -/
def joint_matrix_fill {R : Type} (v : R) : joint_matrix R :=
  fun _ _ => v

/-- Model of `joint_matrix_load(sg, t, p + off, stride)`: element `(r, c)` of the tile is
`p[off + r*stride + c]`. -/
def joint_matrix_load {R : Type} (p : Int → R) (off stride : Int) : joint_matrix R :=
  fun r c => p (off + r * stride + c)

/-- Model of `joint_matrix_mad(sg, d, a, b, c)` with `a` of shape `rows × TK` and `b` of
shape `TK × cols`: `d = a * b + c`, the `TK` products being added to `c` one after the
other. -/
def joint_matrix_mad {R : Type} [Add R] [Mul R] (a b c : joint_matrix R) : joint_matrix R :=
  fun r cc => (List.range TK).foldl (fun acc t => acc + a r t * b t cc) (c r cc)

/-- Model of `joint_matrix_store(sg, t, p + off, stride, row_major)` for a `rows × cols`
tile: `p[off + r*stride + c] = t(r, c)`, element after element. -/
def joint_matrix_store {R : Type} (p : Int → R) (off stride : Int) (rows cols : Nat)
    (t : joint_matrix R) : Int → R :=
  (tile_coords rows cols).foldl
    (fun m rc => Function.update m (off + rc.1 * stride + rc.2) (t rc.1 rc.2)) p

/-! ## The kernel body -/

/-- State of an execution: the contents behind `C` and the accesses made so far. -/
structure Run (R : Type) where
  C : Int → R
  log : List Access

/-- The accesses of one `joint_matrix_load` / `joint_matrix_store`. -/
def tile_accesses (b : Buf) (st : Bool) (off stride : Int) (rows cols : Nat) :
    List Access :=
  (tile_indices off stride rows cols).map fun i => ⟨b, st, i⟩

/-- The tile origin `(m_idx, n_idx)` computed by the work-item with global id `id`:
`int m_idx = item.get_global_id(0) * TM; int n_idx = item.get_global_id(1) * TN;`. -/
def tile_origin (id : Nat × Nat) : Int × Int :=
  (size_t_to_int (id.1 * TM), size_t_to_int (id.2 * TN))

/-- The loop `for (int k = 0; k < K; k += TK) { load tA; load tB; mad }` of the kernel,
started at `k` with accumulator `s.1` and log `s.2`.  The first argument bounds the
number of iterations; `none` means that the bound is reached with `k < K` still true.
The kernel body passes `K`: a loop that ends does so within `K` iterations, so `none`
is a loop that does not end. -/
def k_loop {R : Type} [Add R] [Mul R] (A B : Int → R) (N K m_idx n_idx : Int) :
    Nat → Int → joint_matrix R × List Access → Option (joint_matrix R × List Access)
  | 0, k, s => if k < K then none else some s
  | fuel + 1, k, s =>
    if k < K then
      let tA := joint_matrix_load A (wrap32 (m_idx * K) + k) K
      let tB := joint_matrix_load B (wrap32 (k * N) + n_idx) N
      k_loop A B N K m_idx n_idx fuel (wrap32 (k + TK))
        (joint_matrix_mad tA tB s.1,
         s.2 ++ tile_accesses Buf.A false (wrap32 (m_idx * K) + k) K TM TK
             ++ tile_accesses Buf.B false (wrap32 (k * N) + n_idx) N TK TN)
    else some s

/-- The body of the `parallel_for` lambda, run by a cooperative group with global id
`id`; `none` if its loop does not end. -/
def kernel_body {R : Type} [Zero R] [Add R] [Mul R] (A B : Int → R) (N K : Int)
    (id : Nat × Nat) (s : Run R) : Option (Run R) :=
  let m_idx := (tile_origin id).1
  let n_idx := (tile_origin id).2
  let tC : joint_matrix R := joint_matrix_fill 0
  match k_loop A B N K m_idx n_idx K.toNat 0 (tC, s.log) with
  | none => none
  | some acc =>
    some { C := joint_matrix_store s.C (wrap32 (m_idx * N) + n_idx) N TM TN acc.1
           log := acc.2 ++ tile_accesses Buf.C true (wrap32 (m_idx * N) + n_idx) N TM TN }

/-- The kernel bodies of the given global ids, run one after the other. -/
def run_tiles {R : Type} [Zero R] [Add R] [Mul R] (A B : Int → R) (N K : Int) :
    List (Nat × Nat) → Run R → Option (Run R)
  | [], s => some s
  | id :: rest, s =>
    match kernel_body A B N K id s with
    | none => none
    | some s2 => run_tiles A B N K rest s2

/-! ## Launch geometry -/

/-- A two-dimensional `nd_range`: `nd_range<2>(global_size, local_size)`. -/
structure nd_range where
  global_size : Nat × Nat
  local_size : Nat × Nat
deriving DecidableEq

/-- The global ids of the work-items, row-major. -/
def nd_range.items (nd : nd_range) : List (Nat × Nat) :=
  (List.range nd.global_size.1).flatMap fun i =>
    (List.range nd.global_size.2).map fun j => (i, j)

/-- The work-group a work-item belongs to. -/
def nd_range.group_of (nd : nd_range) (id : Nat × Nat) : Nat × Nat :=
  (id.1 / nd.local_size.1, id.2 / nd.local_size.2)

/-- The work-groups of the launch (each is also one sub-group of 16 work-items, the
cooperative group of the `joint_matrix` operations), without repetition. -/
def nd_range.groups (nd : nd_range) : List (Nat × Nat) :=
  (nd.items.map nd.group_of).dedup

/-- The work-items of one work-group. -/
def nd_range.items_of (nd : nd_range) (g : Nat × Nat) : List (Nat × Nat) :=
  nd.items.filter fun id => nd.group_of id = g

/-- The global range is non-zero and a component-wise multiple of the local range. -/
def nd_range.valid (nd : nd_range) : Prop :=
  0 < nd.global_size.1 ∧ 0 < nd.global_size.2 ∧
  nd.local_size.1 ∣ nd.global_size.1 ∧ nd.local_size.2 ∣ nd.global_size.2

instance (nd : nd_range) : Decidable nd.valid := by
  unfold nd_range.valid; infer_instance

/-- The `nd_range` built by `xmx_gemm_kernel`: `global_size(M / TM, N / TN)` (`int`
division, converted to `size_t`), `local_size(1, 16)`. -/
def launch_range (M N : Int) : nd_range :=
  { global_size := (to_size_t (Int.tdiv M TM), to_size_t (Int.tdiv N TN))
    local_size := (1, 16) }

/-- All work-items of one cooperative group pass the same arguments to the
`joint_matrix` operations: they compute the same tile origin. -/
def nd_range.uniform (nd : nd_range) : Prop :=
  ∀ id ∈ nd.items, ∀ id2 ∈ nd.items,
    nd.group_of id = nd.group_of id2 → tile_origin id = tile_origin id2

instance (nd : nd_range) : Decidable nd.uniform := by
  unfold nd_range.uniform; infer_instance

/-! ## The launch -/

/-- An execution queue: the device it is bound to and its property list. -/
inductive queue_property where
  | immediate_command_list
  | in_order
  | priority_high
deriving DecidableEq

structure queue (D : Type) where
  device : D
  props : List queue_property
deriving DecidableEq

/-- What the command submitted by `xmx_gemm_kernel` does: the `nd_range` is refused (an
exception, nothing runs), or the execution is not defined (a sub-group reaches the
`joint_matrix` operations with different arguments, or a loop does not end), or the
command completes. -/
inductive launch_result (R : Type) where
  | refused
  | undefined
  | completed (run : Run R)

/-- The element `i` of `C` after the command, given the contents `prior` before it; `none`
when the execution is not defined. -/
def launch_result.read {R : Type} (res : launch_result R) (prior : Int → R) (i : Int) :
    Option R :=
  match res with
  | launch_result.refused => some (prior i)
  | launch_result.undefined => none
  | launch_result.completed run => some (run.C i)

/-- Model of `xmx_gemm_kernel(q, A, B, C, M, N, K, alpha, beta)`: the effect of the
command submitted to `q`, once the device has executed it. -/
def xmx_gemm_kernel {D R : Type} [Zero R] [Add R] [Mul R] (_q : queue D) (A B C : Int → R)
    (M N K : Int) (_alpha _beta : R) : launch_result R :=
  if ¬ (launch_range M N).valid then launch_result.refused
  else if ¬ (launch_range M N).uniform then launch_result.undefined
  else
    match run_tiles A B N K (launch_range M N).items { C := C, log := [] } with
    | none => launch_result.undefined
    | some run => launch_result.completed run

/-- Model of `ggml_sycl_xmx_gemm(q, vx, vy, vz, m, n, k)`: the buffers are read as
half-precision arrays and handed to `xmx_gemm_kernel` with `alpha = 1`, `beta = 0`. -/
def ggml_sycl_xmx_gemm {D R : Type} [Zero R] [One R] [Add R] [Mul R] (q : queue D)
    (vx vy vz : Int → R) (m n k : Int) : launch_result R :=
  xmx_gemm_kernel q vx vy vz m n k 1 0

/-! ## Closed forms of the kernel body -/

/-- The values taken by `k` in `for (int k = 0; k < K; k += TK)` when the increments do
not overflow: the multiples `0, TK, 2*TK, …` of `TK` below `K`. -/
def k_steps (K : Int) : List Int :=
  (List.range ((K + 15) / 16).toNat).map fun s : Nat => (s : Int) * 16

/-- The accumulator of the body after its loop: one `joint_matrix_mad` per step. -/
def tile_acc {R : Type} [Zero R] [Add R] [Mul R] (A B : Int → R) (N K m_idx n_idx : Int) :
    joint_matrix R :=
  (k_steps K).foldl
    (fun t k => joint_matrix_mad (joint_matrix_load A (wrap32 (m_idx * K) + k) K)
      (joint_matrix_load B (wrap32 (k * N) + n_idx) N) t) (joint_matrix_fill 0)

/-- The loads of the body: an `A` tile and a `B` tile per step. -/
def tile_loads (N K m_idx n_idx : Int) : List Access :=
  (k_steps K).flatMap fun k =>
    tile_accesses Buf.A false (wrap32 (m_idx * K) + k) K TM TK ++
    tile_accesses Buf.B false (wrap32 (k * N) + n_idx) N TK TN

/-- The element offsets of `C` stored by the body of `id`. -/
def store_region (N : Int) (id : Nat × Nat) : List Int :=
  tile_indices (wrap32 ((tile_origin id).1 * N) + (tile_origin id).2) N TM TN

/-- All accesses of the body of `id`, in order. -/
def body_accesses (N K : Int) (id : Nat × Nat) : List Access :=
  tile_loads N K (tile_origin id).1 (tile_origin id).2 ++
    tile_accesses Buf.C true (wrap32 ((tile_origin id).1 * N) + (tile_origin id).2) N TM TN

/-- What the body of `id` leaves when its loop ends. -/
def body_run {R : Type} [Zero R] [Add R] [Mul R] (A B : Int → R) (N K : Int)
    (id : Nat × Nat) (s : Run R) : Run R :=
  { C := joint_matrix_store s.C (wrap32 ((tile_origin id).1 * N) + (tile_origin id).2) N
      TM TN (tile_acc A B N K (tile_origin id).1 (tile_origin id).2)
    log := s.log ++ body_accesses N K id }

/-! ## Concrete data used in examples -/

/-- A queue on the one-element device type. -/
def unit_queue : queue Unit :=
  { device := (), props := [] }

/-- The identity-like pattern on rows of length 16: `A[i][j] = 1` if `i = j`, else `0`. -/
def idA : Int → Int :=
  fun i => if i / 16 = i % 16 then 1 else 0

/-- A fixed matrix with pairwise different entries. -/
def rampB : Int → Int :=
  fun i => i + 3

/-- The matrix with every entry `1`. -/
def onesM : Int → Int :=
  fun _ => 1

/-- The matrix whose first 16 entries are `1` and all others `0`. -/
def headA : Int → Int :=
  fun i => if 0 ≤ i ∧ i < 16 then 1 else 0

/-- The matrix with every entry `0`. -/
def zerosM : Int → Int :=
  fun _ => 0

/-- The property list both queue factories build. -/
def xmx_prop_list : List queue_property :=
  [queue_property.immediate_command_list, queue_property.in_order]

/-- A queue with the property list of the factories (immediate dispatch, in order). -/
def in_order_queue : queue Unit :=
  { device := (), props := xmx_prop_list }

end Xmx

/-! ## Queue creation -/

namespace xmx_kernels_fixed

open Xmx

/-- The subscript used in `devices[device_id]` of `xmx_kernels_fixed.hpp`: the value of
`device_id` after `if(device_id >= devices.size()) device_id = 0;`, converted to the
unsigned subscript type. -/
def subscript_index {D : Type} (devices : List D) (device_id : Int) : Nat :=
  to_size_t (if to_size_t device_id ≥ devices.length then 0 else device_id)

/-- Model of `create_xmx_optimized_queue` of `xmx_kernels_fixed.hpp`, on the device list returned
by `sycl::device::get_devices()`.  `none` is an out-of-range subscript. -/
def create_xmx_optimized_queue {D : Type} (devices : List D) (device_id : Int) :
    Option (queue D) :=
  let device_id := if to_size_t device_id ≥ devices.length then 0 else device_id
  match devices.get? (to_size_t device_id) with
  | some device => some { device := device, props := xmx_prop_list }
  | none => none

end xmx_kernels_fixed

namespace ggml_sycl_queue_patch

open Xmx

/-- Model of `create_xmx_optimized_queue` of `ggml_sycl_queue_patch.cpp`: the list is
subscripted with `device_id` as it is. -/
def create_xmx_optimized_queue {D : Type} (devices : List D) (device_id : Int) :
    Option (queue D) :=
  match devices.get? (to_size_t device_id) with
  | some device => some { device := device, props := xmx_prop_list }
  | none => none

end ggml_sycl_queue_patch

namespace Xmx

/-! ## Auxiliary facts: machine integers -/

theorem wrap32_eq {x : Int} (h1 : -2 ^ 31 ≤ x) (h2 : x < 2 ^ 31) : wrap32 x = x := by
  unfold wrap32; omega

theorem to_size_t_natCast {n : Nat} (h : n < 2 ^ 64) : to_size_t (n : Int) = n := by
  unfold to_size_t; omega

theorem size_t_to_int_eq {n : Nat} (h : n < 2 ^ 31) : size_t_to_int n = (n : Int) := by
  unfold size_t_to_int wrap32; omega

/-! ## Auxiliary facts: tiles and stores -/

theorem mem_tile_coords {rows cols : Nat} {rc : Nat × Nat} :
    rc ∈ tile_coords rows cols ↔ rc.1 < rows ∧ rc.2 < cols := by
  obtain ⟨r, c⟩ := rc
  simp only [tile_coords, List.mem_flatMap, List.mem_map, List.mem_range, Prod.mk.injEq]
  constructor
  · rintro ⟨a, ha, b, hb, rfl, rfl⟩
    exact ⟨ha, hb⟩
  · rintro ⟨h1, h2⟩
    exact ⟨r, h1, c, h2, rfl, rfl⟩

theorem mem_tile_indices {off stride : Int} {rows cols : Nat} {i : Int} :
    i ∈ tile_indices off stride rows cols ↔
      ∃ r c : Nat, r < rows ∧ c < cols ∧ i = off + r * stride + c := by
  simp only [tile_indices, List.mem_map, mem_tile_coords, Prod.exists]
  constructor
  · rintro ⟨r, c, ⟨h1, h2⟩, rfl⟩
    exact ⟨r, c, h1, h2, rfl⟩
  · rintro ⟨r, c, h1, h2, rfl⟩
    exact ⟨r, c, ⟨h1, h2⟩, rfl⟩

theorem mem_tile_accesses {b : Buf} {st : Bool} {off stride : Int} {rows cols : Nat}
    {a : Access} :
    a ∈ tile_accesses b st off stride rows cols ↔
      ∃ r c : Nat, r < rows ∧ c < cols ∧ a = ⟨b, st, off + r * stride + c⟩ := by
  simp only [tile_accesses, List.mem_map, mem_tile_indices]
  constructor
  · rintro ⟨i, ⟨r, c, h1, h2, rfl⟩, rfl⟩
    exact ⟨r, c, h1, h2, rfl⟩
  · rintro ⟨r, c, h1, h2, rfl⟩
    exact ⟨_, ⟨r, c, h1, h2, rfl⟩, rfl⟩

/-- Element stores leave every other element as it was. -/
theorem foldl_update_frame {α R : Type} (f : α → Int) (g : α → R) (l : List α)
    (p : Int → R) (i : Int) (h : i ∉ l.map f) :
    (l.foldl (fun m x => Function.update m (f x) (g x)) p) i = p i := by
  induction l generalizing p with
  | nil => rfl
  | cons x l ih =>
    rw [List.map_cons, List.mem_cons, not_or] at h
    rw [List.foldl_cons, ih _ h.2, Function.update_noteq h.1]

/-- A sequence of element stores to pairwise different offsets leaves at each of them
the value stored there. -/
theorem foldl_update_own {α R : Type} (f : α → Int) (g : α → R) (l : List α)
    (hinj : ∀ x ∈ l, ∀ y ∈ l, f x = f y → x = y) (p : Int → R) (x : α) (hx : x ∈ l) :
    (l.foldl (fun m x => Function.update m (f x) (g x)) p) (f x) = g x := by
  induction l generalizing p with
  | nil => cases hx
  | cons y l ih =>
    have hinj2 : ∀ a ∈ l, ∀ b ∈ l, f a = f b → a = b := fun a ha b hb =>
      hinj a (List.mem_cons_of_mem _ ha) b (List.mem_cons_of_mem _ hb)
    rw [List.foldl_cons]
    by_cases hxl : x ∈ l
    · exact ih hinj2 _ hxl
    · have hxy : x = y := by
        rcases List.mem_cons.1 hx with h | h
        · exact h
        · exact absurd h hxl
      subst hxy
      have hnot : f x ∉ l.map f := by
        intro hm
        obtain ⟨z, hz, hfz⟩ := List.mem_map.1 hm
        have := hinj z (List.mem_cons_of_mem _ hz) x (List.mem_cons_self _ _) hfz
        exact hxl (this ▸ hz)
      rw [foldl_update_frame f g l _ _ hnot, Function.update_same]

theorem joint_matrix_store_frame {R : Type} (p : Int → R) (off stride : Int)
    (rows cols : Nat) (t : joint_matrix R) (i : Int)
    (h : i ∉ tile_indices off stride rows cols) :
    joint_matrix_store p off stride rows cols t i = p i := by
  unfold joint_matrix_store
  exact foldl_update_frame _ _ _ _ _ h

/-- With a row stride of at least the number of columns, the store leaves `t r c` at
the offset of element `(r, c)`. -/
theorem joint_matrix_store_own {R : Type} (p : Int → R) (off stride : Int)
    (rows cols : Nat) (t : joint_matrix R) (hs : (cols : Int) ≤ stride) (r c : Nat)
    (hr : r < rows) (hc : c < cols) :
    joint_matrix_store p off stride rows cols t (off + r * stride + c) = t r c := by
  unfold joint_matrix_store
  have hinj : ∀ x ∈ tile_coords rows cols, ∀ y ∈ tile_coords rows cols,
      off + (x.1 : Int) * stride + x.2 = off + (y.1 : Int) * stride + y.2 → x = y := by
    rintro ⟨r1, c1⟩ h1 ⟨r2, c2⟩ h2 he
    have hc1 := (mem_tile_coords.1 h1).2
    have hc2 := (mem_tile_coords.1 h2).2
    simp only at hc1 hc2 he
    have hrr : r1 = r2 := by
      by_contra hne
      rcases Nat.lt_or_gt_of_ne hne with hlt | hlt
      · have h3 : ((r1 : Int) + 1) * stride ≤ (r2 : Int) * stride :=
          Int.mul_le_mul_of_nonneg_right (by omega) (by omega)
        have h4 : ((r1 : Int) + 1) * stride = r1 * stride + stride := by ring
        omega
      · have h3 : ((r2 : Int) + 1) * stride ≤ (r1 : Int) * stride :=
          Int.mul_le_mul_of_nonneg_right (by omega) (by omega)
        have h4 : ((r2 : Int) + 1) * stride = r2 * stride + stride := by ring
        omega
    subst hrr
    have hcc : c1 = c2 := by omega
    rw [hcc]
  exact foldl_update_own (fun rc : Nat × Nat => off + (rc.1 : Int) * stride + rc.2)
    (fun rc => t rc.1 rc.2) _ hinj p (r, c) (mem_tile_coords.2 ⟨hr, hc⟩)

/-! ## Auxiliary facts: the loop and the body -/

/-- The loop, started at `k ≥ 0` with `cnt` iterations left and `K ≤ 2^31 - 16`, ends
and is a fold over the steps `k, k + 16, …`. -/
theorem k_loop_steps {R : Type} [Add R] [Mul R] (A B : Int → R) (N K m_idx n_idx : Int)
    (hK : K ≤ 2 ^ 31 - 16) (cnt : Nat) :
    ∀ (fuel : Nat) (k : Int) (acc : joint_matrix R) (log : List Access),
    cnt ≤ fuel → 0 ≤ k → K ≤ k + cnt * 16 → (cnt = 0 ∨ k + ((cnt : Int) - 1) * 16 < K) →
    k_loop A B N K m_idx n_idx fuel k (acc, log) =
      some (((List.range cnt).map fun s : Nat => k + (s : Int) * 16).foldl
          (fun t k => joint_matrix_mad (joint_matrix_load A (wrap32 (m_idx * K) + k) K)
            (joint_matrix_load B (wrap32 (k * N) + n_idx) N) t) acc,
        log ++ ((List.range cnt).map fun s : Nat => k + (s : Int) * 16).flatMap fun k =>
          tile_accesses Buf.A false (wrap32 (m_idx * K) + k) K TM TK ++
          tile_accesses Buf.B false (wrap32 (k * N) + n_idx) N TK TN) := by
  induction cnt with
  | zero =>
    intro fuel k acc log _ _ hk _
    have hk2 : ¬ k < K := by omega
    cases fuel with
    | zero => simp [k_loop, hk2]
    | succ f => simp [k_loop, hk2]
  | succ n ih =>
    intro fuel k acc log hf hk0 hk hlast
    have hk2 : k < K := by
      rcases hlast with h | h
      · omega
      · push_cast at h; omega
    cases fuel with
    | zero => omega
    | succ f =>
      have hTK : ((TK : Nat) : Int) = 16 := rfl
      have hw : wrap32 (k + (TK : Nat)) = k + 16 := by
        rw [hTK]; exact wrap32_eq (by omega) (by omega)
      have h1 : n ≤ f := by omega
      have h2 : K ≤ k + 16 + n * 16 := by push_cast at hk; omega
      have h3 : n = 0 ∨ k + 16 + ((n : Int) - 1) * 16 < K := by
        rcases Nat.eq_zero_or_pos n with h | h
        · exact Or.inl h
        · right
          rcases hlast with h4 | h4
          · omega
          · push_cast at h4; omega
      rw [k_loop, if_pos hk2]
      simp only [hw]
      rw [ih f (k + 16) _ _ h1 (by omega) h2 h3]
      have hmap : ((List.range (n + 1)).map fun s : Nat => k + (s : Int) * 16) =
          k :: ((List.range n).map fun s : Nat => k + 16 + (s : Int) * 16) := by
        rw [List.range_succ_eq_map, List.map_cons, List.map_map]
        simp only [Nat.cast_zero, zero_mul, add_zero]
        congr 1
        apply List.map_congr_left
        intro s _
        show k + ((s + 1 : Nat) : Int) * 16 = k + 16 + (s : Int) * 16
        push_cast
        ring
      rw [hmap, List.foldl_cons, List.flatMap_cons]
      simp only [List.append_assoc]

theorem k_steps_eq (K : Int) :
    k_steps K = (List.range ((K + 15) / 16).toNat).map fun s : Nat => (0 : Int) + (s : Int) * 16 := by
  unfold k_steps
  apply List.map_congr_left
  intro s _
  rw [Int.zero_add]

theorem mem_k_steps {K k : Int} : k ∈ k_steps K ↔ 0 ≤ k ∧ k < K ∧ (16 : Int) ∣ k := by
  unfold k_steps
  rw [List.mem_map]
  constructor
  · rintro ⟨s, hs, rfl⟩
    rw [List.mem_range] at hs
    refine ⟨by omega, by omega, Dvd.intro_left _ rfl⟩
  · rintro ⟨h0, h1, h2⟩
    refine ⟨(k / 16).toNat, ?_, by omega⟩
    rw [List.mem_range]
    omega

/-- With `K ≤ 2^31 - 16` the body ends and leaves its closed form. -/
theorem kernel_body_eq {R : Type} [Zero R] [Add R] [Mul R] (A B : Int → R) (N K : Int)
    (hK : K ≤ 2 ^ 31 - 16) (id : Nat × Nat) (s : Run R) :
    kernel_body A B N K id s = some (body_run A B N K id s) := by
  have hloop := k_loop_steps A B N K (tile_origin id).1 (tile_origin id).2 hK
    ((K + 15) / 16).toNat K.toNat 0 (joint_matrix_fill 0) s.log (by omega) (by omega)
    (by omega) (by omega)
  rw [← k_steps_eq] at hloop
  unfold kernel_body
  simp only [hloop]
  unfold body_run body_accesses tile_acc tile_loads
  simp only [List.append_assoc]

theorem run_tiles_eq {R : Type} [Zero R] [Add R] [Mul R] (A B : Int → R) (N K : Int)
    (hK : K ≤ 2 ^ 31 - 16) (order : List (Nat × Nat)) (s : Run R) :
    run_tiles A B N K order s = some (order.foldl (fun s id => body_run A B N K id s) s) := by
  induction order generalizing s with
  | nil => rfl
  | cons id rest ih =>
    rw [run_tiles, kernel_body_eq A B N K hK]
    simp only [List.foldl_cons]
    exact ih _

theorem foldl_body_run_log {R : Type} [Zero R] [Add R] [Mul R] (A B : Int → R) (N K : Int)
    (order : List (Nat × Nat)) (s : Run R) :
    (order.foldl (fun s id => body_run A B N K id s) s).log =
      s.log ++ order.flatMap (body_accesses N K) := by
  induction order generalizing s with
  | nil => simp
  | cons id rest ih =>
    rw [List.foldl_cons, ih, List.flatMap_cons]
    simp only [body_run, List.append_assoc]

theorem body_run_frame {R : Type} [Zero R] [Add R] [Mul R] (A B : Int → R) (N K : Int)
    (id : Nat × Nat) (s : Run R) (i : Int) (h : i ∉ store_region N id) :
    (body_run A B N K id s).C i = s.C i :=
  joint_matrix_store_frame _ _ _ _ _ _ _ h

theorem foldl_body_run_frame {R : Type} [Zero R] [Add R] [Mul R] (A B : Int → R) (N K : Int)
    (order : List (Nat × Nat)) (s : Run R) (i : Int)
    (h : ∀ id ∈ order, i ∉ store_region N id) :
    (order.foldl (fun s id => body_run A B N K id s) s).C i = s.C i := by
  induction order generalizing s with
  | nil => rfl
  | cons id rest ih =>
    rw [List.foldl_cons, ih _ (fun x hx => h x (List.mem_cons_of_mem _ hx)),
      body_run_frame A B N K id s i (h id (List.mem_cons_self _ _))]

/-- The value at an offset that only the tile `id0` of the list stores to is the
accumulator element of that tile. -/
theorem foldl_body_run_own {R : Type} [Zero R] [Add R] [Mul R] (A B : Int → R) (N K : Int)
    (hN : (TN : Int) ≤ N) (order : List (Nat × Nat)) (s : Run R) (id0 : Nat × Nat)
    (h0 : id0 ∈ order) (r c : Nat) (hr : r < TM) (hc : c < TN)
    (huniq : ∀ id ∈ order,
      wrap32 ((tile_origin id0).1 * N) + (tile_origin id0).2 + r * N + c ∈ store_region N id →
      id = id0) :
    (order.foldl (fun s id => body_run A B N K id s) s).C
        (wrap32 ((tile_origin id0).1 * N) + (tile_origin id0).2 + r * N + c) =
      tile_acc A B N K (tile_origin id0).1 (tile_origin id0).2 r c := by
  induction order generalizing s with
  | nil => cases h0
  | cons id rest ih =>
    rw [List.foldl_cons]
    by_cases hrest : id0 ∈ rest
    · exact ih _ hrest (fun x hx => huniq x (List.mem_cons_of_mem _ hx))
    · have hid : id0 = id := by
        rcases List.mem_cons.1 h0 with h | h
        · exact h
        · exact absurd h hrest
      subst hid
      rw [foldl_body_run_frame]
      · have hown := joint_matrix_store_own s.C
          (wrap32 ((tile_origin id0).1 * N) + (tile_origin id0).2) N TM TN
          (tile_acc A B N K (tile_origin id0).1 (tile_origin id0).2) hN r c hr hc
        simp only [body_run]
        exact hown
      · intro x hx hmem
        have := huniq x (List.mem_cons_of_mem _ hx) hmem
        exact hrest (this ▸ hx)

end Xmx

namespace Xmx

/-! ## Auxiliary facts: shapes whose index products fit `int` -/

theorem launch_range_natCast (M N : Nat) (hM : M < 2 ^ 31) (hN : N < 2 ^ 31) :
    launch_range (M : Int) (N : Int) =
      { global_size := (M / 8, N / 16), local_size := (1, 16) } := by
  have h1 : Int.tdiv (M : Int) ((TM : Nat) : Int) = ((M / 8 : Nat) : Int) := rfl
  have h2 : Int.tdiv (N : Int) ((TN : Nat) : Int) = ((N / 16 : Nat) : Int) := rfl
  unfold launch_range
  rw [h1, h2, to_size_t_natCast (by omega), to_size_t_natCast (by omega)]

theorem mem_items {nd : nd_range} {id : Nat × Nat} :
    id ∈ nd.items ↔ id.1 < nd.global_size.1 ∧ id.2 < nd.global_size.2 := by
  obtain ⟨i, j⟩ := id
  simp only [nd_range.items, List.mem_flatMap, List.mem_map, List.mem_range, Prod.mk.injEq]
  constructor
  · rintro ⟨a, ha, b, hb, rfl, rfl⟩
    exact ⟨ha, hb⟩
  · rintro ⟨h1, h2⟩
    exact ⟨i, h1, j, h2, rfl, rfl⟩

theorem mem_launch_items {M N : Nat} (hM : M < 2 ^ 31) (hN : N < 2 ^ 31)
    {id : Nat × Nat} :
    id ∈ (launch_range (M : Int) (N : Int)).items ↔ id.1 < M / 8 ∧ id.2 < N / 16 := by
  rw [mem_items, launch_range_natCast M N hM hN]

theorem tile_origin_eq {t : Nat × Nat} (h1 : t.1 * 8 < 2 ^ 31) (h2 : t.2 * 16 < 2 ^ 31) :
    tile_origin t = (((t.1 * 8 : Nat) : Int), ((t.2 * 16 : Nat) : Int)) := by
  unfold tile_origin
  have hTM : t.1 * TM = t.1 * 8 := rfl
  have hTN : t.2 * TN = t.2 * 16 := rfl
  rw [hTM, hTN, size_t_to_int_eq h1, size_t_to_int_eq h2]

theorem nat_row_le {i r m n : Nat} (hi : i * 8 + r < m) : (i * 8 + r) * n ≤ m * n :=
  Nat.mul_le_mul_right _ (Nat.le_of_lt hi)

/-- A tile origin of a launch, as natural numbers: rows `t.1*8 .. t.1*8+7` are below
`M`, columns `t.2*16 .. t.2*16+15` are below `N`. -/
theorem item_bounds {M N : Nat} {t : Nat × Nat} (h : t.1 < M / 8 ∧ t.2 < N / 16) :
    t.1 * 8 + 8 ≤ M / 8 * 8 ∧ M / 8 * 8 ≤ M ∧ t.2 * 16 + 16 ≤ N / 16 * 16 ∧
      N / 16 * 16 ≤ N := by
  omega

/-- The store offset of a tile of a launch whose `M*N` fits `int`. -/
theorem store_offset_eq {M N : Nat} (hMN : M * N < 2 ^ 31) (hM : M < 2 ^ 31)
    (hN : N < 2 ^ 31) {t : Nat × Nat} (h : t.1 < M / 8 ∧ t.2 < N / 16) :
    wrap32 ((tile_origin t).1 * (N : Int)) + (tile_origin t).2 =
      ((t.1 * 8 * N + t.2 * 16 : Nat) : Int) := by
  have hb := item_bounds h
  rw [tile_origin_eq (by omega) (by omega)]
  have h1 : t.1 * 8 * N ≤ M * N := Nat.mul_le_mul_right _ (by omega)
  have h2 : (((t.1 * 8 : Nat) : Int)) * (N : Int) = ((t.1 * 8 * N : Nat) : Int) := by
    push_cast; ring
  simp only
  rw [h2, wrap32_eq (by omega) (by omega)]
  push_cast
  ring

theorem mem_store_region {M N : Nat} (hMN : M * N < 2 ^ 31) (hM : M < 2 ^ 31)
    (hN : N < 2 ^ 31) {t : Nat × Nat} (h : t.1 < M / 8 ∧ t.2 < N / 16) {i : Int} :
    i ∈ store_region (N : Int) t ↔
      ∃ r c : Nat, r < 8 ∧ c < 16 ∧ i = (((t.1 * 8 + r) * N + (t.2 * 16 + c) : Nat) : Int) := by
  unfold store_region
  rw [store_offset_eq hMN hM hN h, mem_tile_indices]
  constructor
  · rintro ⟨r, c, hr, hc, rfl⟩
    exact ⟨r, c, hr, hc, by push_cast; ring⟩
  · rintro ⟨r, c, hr, hc, rfl⟩
    exact ⟨r, c, hr, hc, by push_cast; ring⟩

theorem row_col_unique {a b a2 b2 n : Nat} (hb : b < n) (hb2 : b2 < n)
    (h : a * n + b = a2 * n + b2) : a = a2 ∧ b = b2 := by
  have hn : 0 < n := by omega
  have e1 : (a * n + b) / n = a := by
    rw [Nat.add_comm, Nat.mul_comm, Nat.add_mul_div_left _ _ hn, Nat.div_eq_of_lt hb,
      Nat.zero_add]
  have e2 : (a2 * n + b2) / n = a2 := by
    rw [Nat.add_comm, Nat.mul_comm, Nat.add_mul_div_left _ _ hn, Nat.div_eq_of_lt hb2,
      Nat.zero_add]
  have ha : a = a2 := by rw [← e1, ← e2, h]
  subst ha
  exact ⟨rfl, Nat.add_left_cancel h⟩

theorem row_col_lt {a b m k : Nat} (ha : a < m) (hb : b < k) : a * k + b < m * k :=
  calc a * k + b < a * k + k := Nat.add_lt_add_left hb _
    _ = (a + 1) * k := by ring
    _ ≤ m * k := Nat.mul_le_mul_right _ ha

/-- Two tiles of a launch whose `M*N` fits `int` and that store to a common offset are
the same tile. -/
theorem store_region_inj {M N : Nat} (hMN : M * N < 2 ^ 31) (hM : M < 2 ^ 31)
    (hN : N < 2 ^ 31) {id id2 : Nat × Nat} (h : id.1 < M / 8 ∧ id.2 < N / 16)
    (h2 : id2.1 < M / 8 ∧ id2.2 < N / 16) {i : Int}
    (hi : i ∈ store_region (N : Int) id) (hi2 : i ∈ store_region (N : Int) id2) :
    id = id2 := by
  obtain ⟨r, c, hr, hc, e⟩ := (mem_store_region hMN hM hN h).1 hi
  obtain ⟨r2, c2, hr2, hc2, e2⟩ := (mem_store_region hMN hM hN h2).1 hi2
  have he : (id.1 * 8 + r) * N + (id.2 * 16 + c) = (id2.1 * 8 + r2) * N + (id2.2 * 16 + c2) := by
    have := e.symm.trans e2
    exact_mod_cast this
  have hb := item_bounds h
  have hb2 := item_bounds h2
  have hu := row_col_unique (by omega) (by omega) he
  obtain ⟨i1, j1⟩ := id
  obtain ⟨i2, j2⟩ := id2
  simp only at hu hb hb2 h h2
  have ha : i1 = i2 := by omega
  have hbb : j1 = j2 := by omega
  rw [ha, hbb]

/-- Element `(r, c)` of `C` lies in the store region of tile `(r/8, c/16)`. -/
theorem covered {M N : Nat} (hMN : M * N < 2 ^ 31) (hM : M < 2 ^ 31) (hN : N < 2 ^ 31)
    (hdM : 8 ∣ M) (hdN : 16 ∣ N) {r c : Nat} (hr : r < M) (hc : c < N) :
    (r / 8 < M / 8 ∧ c / 16 < N / 16) ∧
      ((r * N + c : Nat) : Int) ∈ store_region (N : Int) (r / 8, c / 16) := by
  have hid : r / 8 < M / 8 ∧ c / 16 < N / 16 := by omega
  refine ⟨hid, ?_⟩
  rw [mem_store_region hMN hM hN (t := (r / 8, c / 16)) hid]
  refine ⟨r % 8, c % 16, by omega, by omega, ?_⟩
  have e1 : r / 8 * 8 + r % 8 = r := by omega
  have e2 : c / 16 * 16 + c % 16 = c := by omega
  simp only
  rw [e1, e2]

end Xmx

namespace Xmx

/-! ## Auxiliary facts: exact arithmetic -/

theorem foldl_add_eq_sum {R : Type} [Semiring R] (f : Nat → R) (init : R) (n : Nat) :
    (List.range n).foldl (fun acc t => acc + f t) init =
      init + (Finset.range n).sum f := by
  induction n with
  | zero => simp
  | succ n ih =>
    rw [List.range_succ, List.foldl_append, ih, Finset.sum_range_succ]
    simp only [List.foldl_cons, List.foldl_nil]
    rw [add_assoc]

theorem joint_matrix_mad_eq {R : Type} [Semiring R] (a b c : joint_matrix R) (r cc : Nat) :
    joint_matrix_mad a b c r cc = c r cc + (Finset.range 16).sum fun t => a r t * b t cc := by
  unfold joint_matrix_mad
  exact foldl_add_eq_sum (fun t => a r t * b t cc) (c r cc) 16

/-- In exact arithmetic, with `TK ∣ K` and offsets that do not overflow, the accumulator
holds the full dot products. -/
theorem tile_acc_eq {R : Type} [Semiring R] (A B : Int → R) (N K : Nat) (m_idx n_idx : Int)
    (hK : 16 ∣ K) (hKN : K * N < 2 ^ 31) (hA : wrap32 (m_idx * (K : Int)) = m_idx * (K : Int))
    (r c : Nat) :
    tile_acc A B (N : Int) (K : Int) m_idx n_idx r c =
      (Finset.range K).sum fun t : Nat =>
        A (m_idx * (K : Int) + (r : Int) * (K : Int) + (t : Int)) *
          B ((t : Int) * (N : Int) + n_idx + (c : Int)) := by
  obtain ⟨n, hn⟩ := hK
  have hcnt : (((K : Int) + 15) / 16).toNat = n := by omega
  have key : ∀ m : Nat, m ≤ n →
      (((List.range m).map fun s : Nat => (s : Int) * 16).foldl
        (fun t k => joint_matrix_mad (joint_matrix_load A (wrap32 (m_idx * (K : Int)) + k) K)
          (joint_matrix_load B (wrap32 (k * (N : Int)) + n_idx) N) t)
        (joint_matrix_fill 0)) r c =
      (Finset.range (m * 16)).sum fun t : Nat =>
        A (m_idx * (K : Int) + (r : Int) * (K : Int) + (t : Int)) *
          B ((t : Int) * (N : Int) + n_idx + (c : Int)) := by
    intro m
    induction m with
    | zero =>
      intro _
      simp [joint_matrix_fill]
    | succ m ih =>
      intro hm
      have hm2 : m ≤ n := by omega
      rw [List.range_succ, List.map_append, List.foldl_append]
      simp only [List.map_cons, List.map_nil, List.foldl_cons, List.foldl_nil]
      rw [joint_matrix_mad_eq, ih hm2]
      have hsplit : (m + 1) * 16 = m * 16 + 16 := by ring
      rw [hsplit, Finset.sum_range_add]
      congr 1
      apply Finset.sum_congr rfl
      intro u _
      have hle : m * 16 * N ≤ K * N := Nat.mul_le_mul_right _ (by omega)
      have hw : wrap32 (((m : Int) * 16) * (N : Int)) = ((m : Int) * 16) * (N : Int) := by
        have e : ((m : Int) * 16) * (N : Int) = ((m * 16 * N : Nat) : Int) := by push_cast; ring
        rw [e]
        exact wrap32_eq (by omega) (by omega)
      simp only [joint_matrix_load]
      rw [hw, hA]
      refine congrArg₂ (fun x y => x * y) (congrArg A ?_) (congrArg B ?_)
      · push_cast; ring
      · push_cast; ring
  unfold tile_acc k_steps
  rw [hcnt, key n (le_refl n)]
  have e : n * 16 = K := by omega
  rw [e]

/-! ## Auxiliary facts: the accesses of a body in a shape that fits `int` -/

theorem foldl_congr_mem {α β : Type} (f g : β → α → β) (l : List α) (b : β)
    (h : ∀ x ∈ l, ∀ y, f y x = g y x) : l.foldl f b = l.foldl g b := by
  induction l generalizing b with
  | nil => rfl
  | cons x l ih =>
    rw [List.foldl_cons, List.foldl_cons, h x (List.mem_cons_self _ _),
      ih _ (fun z hz => h z (List.mem_cons_of_mem _ hz))]

theorem flatMap_congr_mem {α β : Type} (f g : α → List β) (l : List α)
    (h : ∀ x ∈ l, f x = g x) : l.flatMap f = l.flatMap g := by
  induction l with
  | nil => rfl
  | cons x l ih =>
    rw [List.flatMap_cons, List.flatMap_cons, h x (List.mem_cons_self _ _),
      ih (fun z hz => h z (List.mem_cons_of_mem _ hz))]

/-- The load offset `k * N` of a loop step does not overflow when `K*N` fits `int`. -/
theorem step_offset_eq {N K : Nat} (hKN : K * N < 2 ^ 31) {k : Int}
    (hk : k ∈ k_steps (K : Int)) : wrap32 (k * (N : Int)) = k * (N : Int) := by
  obtain ⟨h0, h1, _⟩ := mem_k_steps.1 hk
  obtain ⟨kn, rfl⟩ : ∃ kn : Nat, k = (kn : Int) := ⟨k.toNat, by omega⟩
  have hle : kn * N ≤ K * N := Nat.mul_le_mul_right _ (by omega)
  have e : (kn : Int) * (N : Int) = ((kn * N : Nat) : Int) := by push_cast; ring
  rw [e]
  exact wrap32_eq (by omega) (by omega)

/-- The `A` offset `m_idx * K` of a tile of a launch does not overflow when `M*K` fits
`int`. -/
theorem row_offset_eq {M K : Nat} (hMK : M * K < 2 ^ 31) {i : Nat} (hi : i < M / 8) :
    wrap32 (((i * 8 : Nat) : Int) * (K : Int)) = ((i * 8 * K : Nat) : Int) := by
  have hle : i * 8 * K ≤ M * K := Nat.mul_le_mul_right _ (by omega)
  have e : ((i * 8 : Nat) : Int) * (K : Int) = ((i * 8 * K : Nat) : Int) := by push_cast; ring
  rw [e]
  exact wrap32_eq (by omega) (by omega)

end Xmx

namespace Xmx

theorem idx_split (r c N : Nat) :
    r * N + c = r / 8 * 8 * N + c / 16 * 16 + r % 8 * N + c % 16 := by
  have e1 : r / 8 * 8 + r % 8 = r := by omega
  have e2 : c / 16 * 16 + c % 16 = c := by omega
  calc r * N + c = (r / 8 * 8 + r % 8) * N + (c / 16 * 16 + c % 16) := by rw [e1, e2]
    _ = r / 8 * 8 * N + c / 16 * 16 + r % 8 * N + c % 16 := by ring

/-! ## Execution per global id: correctness and order -/

/-- C1, amended. For `M`, `N`, `K` positive multiples of `TM`, `TN`, `TK` whose products
`M*K`, `K*N`, `M*N` are below `2^31` (the `int` index products do not overflow) and
row-major `A`, `B`: when every global id `(i, j)` with `i < M/TM`, `j < N/TN` runs
the kernel body, in exact arithmetic, all bodies end and element `(r, c)` of `C` is the
dot product `∑ t < K, A[r*K + t] * B[t*N + c]`, for every `r < M` and `c < N`. -/
theorem run_tiles_correct {R : Type} [Semiring R] (A B C : Int → R) (M N K : Nat)
    (hM0 : 0 < M) (hN0 : 0 < N) (hM : TM ∣ M) (hN : TN ∣ N) (hK : TK ∣ K)
    (hMK : M * K < 2 ^ 31) (hKN : K * N < 2 ^ 31) (hMN : M * N < 2 ^ 31) :
    ∃ run, run_tiles A B (N : Int) (K : Int) (launch_range (M : Int) (N : Int)).items
        { C := C, log := [] } = some run ∧
      ∀ r c : Nat, r < M → c < N →
        run.C ((r * N + c : Nat) : Int) =
          (Finset.range K).sum fun t : Nat =>
            A ((r * K + t : Nat) : Int) * B ((t * N + c : Nat) : Int) := by
  have hM31 : M < 2 ^ 31 := lt_of_le_of_lt (Nat.le_mul_of_pos_right M hN0) hMN
  have hN31 : N < 2 ^ 31 := lt_of_le_of_lt (Nat.le_mul_of_pos_left N hM0) hMN
  have hK31 : K < 2 ^ 31 := lt_of_le_of_lt (Nat.le_mul_of_pos_right K hN0) hKN
  have hdM : 8 ∣ M := hM
  have hdN : 16 ∣ N := hN
  have hdK : 16 ∣ K := hK
  have hN16 : ((TN : Nat) : Int) ≤ (N : Int) := by
    have : TN = 16 := rfl
    rw [this]; omega
  refine ⟨_, run_tiles_eq A B N K (by omega) _ _, ?_⟩
  intro r c hr hc
  obtain ⟨hid, hmem⟩ := covered hMN hM31 hN31 hdM hdN hr hc
  have hitem : (r / 8, c / 16) ∈ (launch_range (M : Int) (N : Int)).items :=
    (mem_launch_items hM31 hN31).2 hid
  have hoff := store_offset_eq hMN hM31 hN31 (t := (r / 8, c / 16)) hid
  have hidx : ((r * N + c : Nat) : Int) =
      wrap32 ((tile_origin (r / 8, c / 16)).1 * (N : Int)) + (tile_origin (r / 8, c / 16)).2
        + ((r % 8 : Nat) : Int) * (N : Int) + ((c % 16 : Nat) : Int) := by
    rw [hoff, idx_split r c N]
    push_cast
    ring
  have huniq : ∀ id ∈ (launch_range (M : Int) (N : Int)).items,
      wrap32 ((tile_origin (r / 8, c / 16)).1 * (N : Int)) + (tile_origin (r / 8, c / 16)).2
        + ((r % 8 : Nat) : Int) * (N : Int) + ((c % 16 : Nat) : Int) ∈ store_region (N : Int) id →
      id = (r / 8, c / 16) := by
    intro id hidm hin
    rw [← hidx] at hin
    exact store_region_inj hMN hM31 hN31 ((mem_launch_items hM31 hN31).1 hidm) hid hin hmem
  rw [hidx, foldl_body_run_own A B N K hN16 _ _ (r / 8, c / 16) hitem (r % 8) (c % 16)
    (Nat.mod_lt _ (by decide)) (Nat.mod_lt _ (by decide)) huniq]
  have hb := item_bounds (M := M) (N := N) (t := (r / 8, c / 16)) hid
  have horig := tile_origin_eq (t := (r / 8, c / 16)) (by simp only; omega)
    (by simp only; omega)
  rw [horig]
  simp only
  have hA : wrap32 (((r / 8 * 8 : Nat) : Int) * (K : Int)) = ((r / 8 * 8 : Nat) : Int) * (K : Int) := by
    rw [row_offset_eq hMK hid.1]
    push_cast
    ring
  rw [tile_acc_eq A B N K _ _ hdK hKN hA]
  apply Finset.sum_congr rfl
  intro t _
  have e1 : r / 8 * 8 + r % 8 = r := by omega
  have e2 : c / 16 * 16 + c % 16 = c := by omega
  have eA : ((r / 8 * 8 : Nat) : Int) * (K : Int) + ((r % 8 : Nat) : Int) * (K : Int) + (t : Int)
      = ((r * K + t : Nat) : Int) := by
    have : (r / 8 * 8 + r % 8) * K + t = r * K + t := by rw [e1]
    have h2 : (((r / 8 * 8 + r % 8) * K + t : Nat) : Int) = ((r * K + t : Nat) : Int) := by
      rw [this]
    rw [← h2]
    push_cast
    ring
  have eB : (t : Int) * (N : Int) + ((c / 16 * 16 : Nat) : Int) + ((c % 16 : Nat) : Int)
      = ((t * N + c : Nat) : Int) := by
    have h2 : ((t * N + (c / 16 * 16 + c % 16) : Nat) : Int) = ((t * N + c : Nat) : Int) := by
      rw [e2]
    rw [← h2]
    push_cast
    ring
  rw [eA, eB]

theorem run_tiles_correct_witness :
    0 < 16 ∧ 0 < 32 ∧ TM ∣ 16 ∧ TN ∣ 32 ∧ TK ∣ 48 ∧ 16 * 48 < 2 ^ 31 ∧ 48 * 32 < 2 ^ 31 ∧
    16 * 32 < 2 ^ 31 ∧
    ∃ run, run_tiles idA rampB ((32 : Nat) : Int) ((48 : Nat) : Int)
        (launch_range ((16 : Nat) : Int) ((32 : Nat) : Int)).items
        { C := fun _ => 7, log := [] } = some run ∧
      ∀ r c : Nat, r < 16 → c < 32 →
        run.C ((r * 32 + c : Nat) : Int) =
          (Finset.range 48).sum fun t : Nat =>
            idA ((r * 48 + t : Nat) : Int) * rampB ((t * 32 + c : Nat) : Int) :=
  ⟨by decide, by decide, by decide, by decide, by decide, by decide, by decide, by decide,
   run_tiles_correct idA rampB (fun _ => 7) 16 32 48 (by decide) (by decide) (by decide)
     (by decide) (by decide) (by decide) (by decide) (by decide)⟩

end Xmx

namespace Xmx

/-- C1 as stated fails: for `M = 134217736`, `N = 16`, `K = 16` (multiples of the tile
shape) and all-ones `A`, `B`, the bodies of all global ids leave element
`(134217728, 0)` of `C` at its prior value `0`, while the dot product is `16`: the
work-item of that row stores at offset `-2^31` (`m_idx * N` overflows). -/
theorem run_tiles_correct_counterexample :
    TM ∣ 134217736 ∧ TN ∣ 16 ∧ TK ∣ 16 ∧ 134217728 < 134217736 ∧ 0 < 16 ∧
    (run_tiles onesM onesM 16 16 (launch_range 134217736 16).items
        { C := zerosM, log := [] }).map (fun run => run.C (134217728 * 16 + 0)) = some 0 ∧
    ((Finset.range 16).sum fun t : Nat =>
        onesM ((134217728 * 16 + t : Nat) : Int) * onesM ((t * 16 + 0 : Nat) : Int)) = 16 := by
  refine ⟨by decide, by decide, by decide, by decide, by decide, ?_, by decide⟩
  rw [run_tiles_eq onesM onesM 16 16 (by decide), Option.map_some']
  have hg : (launch_range 134217736 16).global_size = (16777217, 1) := by decide
  rw [foldl_body_run_frame]
  · rfl
  · intro id hid hmem
    rw [mem_items, hg] at hid
    unfold store_region at hmem
    obtain ⟨r, c, hr, hc, e⟩ := mem_tile_indices.1 hmem
    unfold tile_origin size_t_to_int wrap32 at e
    simp only [TM, TN] at e hr hc
    omega

/-- C7, amended. For a shape with `TK ∣ K` and `M*N` below `2^31` (the `int` store offsets
`m_idx * N` do not overflow), running the kernel bodies of the tile ids one after the
other in any permuted order ends and leaves the same `C` as running them in row-major
order; no law of arithmetic is used. -/
theorem run_tiles_perm {R : Type} [Zero R] [Add R] [Mul R] (A B C : Int → R)
    (M N K : Nat) (hM0 : 0 < M) (hN0 : 0 < N) (hK : TK ∣ K) (hK31 : K < 2 ^ 31)
    (hMN : M * N < 2 ^ 31)
    (order : List (Nat × Nat)) (hperm : order.Perm (launch_range (M : Int) (N : Int)).items) :
    ∃ run1 run2,
      run_tiles A B (N : Int) (K : Int) order { C := C, log := [] } = some run1 ∧
      run_tiles A B (N : Int) (K : Int) (launch_range (M : Int) (N : Int)).items
        { C := C, log := [] } = some run2 ∧
      run1.C = run2.C := by
  have hM31 : M < 2 ^ 31 := lt_of_le_of_lt (Nat.le_mul_of_pos_right M hN0) hMN
  have hN31 : N < 2 ^ 31 := lt_of_le_of_lt (Nat.le_mul_of_pos_left N hM0) hMN
  have hdK : 16 ∣ K := hK
  refine ⟨_, _, run_tiles_eq A B N K (by omega) order _, run_tiles_eq A B N K (by omega) _ _, ?_⟩
  funext i
  by_cases h : ∃ id ∈ (launch_range (M : Int) (N : Int)).items, i ∈ store_region (N : Int) id
  · obtain ⟨id0, h0, hi⟩ := h
    have hid0 := (mem_launch_items hM31 hN31).1 h0
    have hN16 : ((TN : Nat) : Int) ≤ (N : Int) := by
      have : TN = 16 := rfl
      rw [this]; omega
    have hinj : ∀ id ∈ (launch_range (M : Int) (N : Int)).items,
        i ∈ store_region (N : Int) id → id = id0 := fun id hid hin =>
      store_region_inj hMN hM31 hN31 ((mem_launch_items hM31 hN31).1 hid) hid0 hin hi
    have hi2 := hi
    unfold store_region at hi2
    obtain ⟨r, c, hr, hc, e⟩ := mem_tile_indices.1 hi2
    rw [e] at hinj ⊢
    rw [foldl_body_run_own A B N K hN16 order _ id0 (hperm.mem_iff.2 h0) r c hr hc
        (fun id hid hin => hinj id (hperm.mem_iff.1 hid) hin),
      foldl_body_run_own A B N K hN16 _ _ id0 h0 r c hr hc hinj]
  · have hno : ∀ id ∈ (launch_range (M : Int) (N : Int)).items,
        i ∉ store_region (N : Int) id := fun id hid hin => h ⟨id, hid, hin⟩
    rw [foldl_body_run_frame A B N K order _ i (fun id hid => hno id (hperm.mem_iff.1 hid)),
      foldl_body_run_frame A B N K _ _ i hno]

theorem run_tiles_perm_witness :
    0 < 16 ∧ 0 < 32 ∧ TK ∣ 16 ∧ 16 < 2 ^ 31 ∧ 16 * 32 < 2 ^ 31 ∧
    ((launch_range ((16 : Nat) : Int) ((32 : Nat) : Int)).items.reverse).Perm
      (launch_range ((16 : Nat) : Int) ((32 : Nat) : Int)).items ∧
    ∃ run1 run2,
      run_tiles idA rampB ((32 : Nat) : Int) ((16 : Nat) : Int)
        (launch_range ((16 : Nat) : Int) ((32 : Nat) : Int)).items.reverse
        { C := fun _ => 7, log := [] } = some run1 ∧
      run_tiles idA rampB ((32 : Nat) : Int) ((16 : Nat) : Int)
        (launch_range ((16 : Nat) : Int) ((32 : Nat) : Int)).items
        { C := fun _ => 7, log := [] } = some run2 ∧
      run1.C = run2.C :=
  ⟨by decide, by decide, by decide, by decide, by decide, List.reverse_perm _,
   run_tiles_perm idA rampB (fun _ => 7) 16 32 16 (by decide) (by decide) (by decide)
     (by decide) (by decide) _ (List.reverse_perm _)⟩

/-- The tile `(131072, 0)` of the shape `1048584 × 4096` stores at offset `0`
(`m_idx * N = 2^32` wraps to `0`) the dot product of row `1048576` of `A`. -/
theorem body_far_tile (s : Run Int) :
    (body_run headA onesM 4096 16 (131072, 0) s).C 0 = 0 := by
  have h := joint_matrix_store_own s.C
    (wrap32 ((tile_origin (131072, 0)).1 * 4096) + (tile_origin (131072, 0)).2) 4096 TM TN
    (tile_acc headA onesM 4096 16 (tile_origin (131072, 0)).1 (tile_origin (131072, 0)).2)
    (by decide) 0 0 (by decide) (by decide)
  have e : wrap32 ((tile_origin (131072, 0)).1 * 4096) + (tile_origin (131072, 0)).2
      + ((0 : Nat) : Int) * 4096 + ((0 : Nat) : Int) = 0 := by decide
  rw [e] at h
  have v : tile_acc headA onesM 4096 16 (tile_origin (131072, 0)).1
      (tile_origin (131072, 0)).2 0 0 = 0 := by decide
  simp only [body_run]
  rw [h, v]

/-- The tile `(0, 0)` stores at offset `0` the dot product of row `0` of `A`. -/
theorem body_first_tile (s : Run Int) :
    (body_run headA onesM 4096 16 (0, 0) s).C 0 = 16 := by
  have h := joint_matrix_store_own s.C
    (wrap32 ((tile_origin (0, 0)).1 * 4096) + (tile_origin (0, 0)).2) 4096 TM TN
    (tile_acc headA onesM 4096 16 (tile_origin (0, 0)).1 (tile_origin (0, 0)).2)
    (by decide) 0 0 (by decide) (by decide)
  have e : wrap32 ((tile_origin (0, 0)).1 * 4096) + (tile_origin (0, 0)).2
      + ((0 : Nat) : Int) * 4096 + ((0 : Nat) : Int) = 0 := by decide
  rw [e] at h
  have v : tile_acc headA onesM 4096 16 (tile_origin (0, 0)).1
      (tile_origin (0, 0)).2 0 0 = 16 := by decide
  simp only [body_run]
  rw [h, v]

theorem erase_append_perm {α : Type} [BEq α] [LawfulBEq α] (l : List α) (a : α) (h : a ∈ l) :
    (l.erase a ++ [a]).Perm l := by
  induction l with
  | nil => cases h
  | cons b l ih =>
    rw [List.erase_cons]
    by_cases hb : (b == a) = true
    · rw [if_pos hb]
      have e : b = a := eq_of_beq hb
      rw [e]
      exact List.perm_append_singleton a l
    · rw [if_neg hb]
      have hne : a ≠ b := fun e => hb (by rw [e]; exact beq_self_eq_true b)
      have hl : a ∈ l := by
        rcases List.mem_cons.1 h with h1 | h1
        · exact absurd h1 hne
        · exact h1
      exact List.Perm.cons b (ih hl)

/-- C7 as stated fails: for `M = 1048584`, `N = 4096`, `K = 16` (multiples of the tile
shape) the tiles `(0, 0)` and `(131072, 0)` both store at offset `0` (`m_idx * N = 2^32`
wraps to `0`), with different values; the order that runs `(131072, 0)` last leaves
`C[0] = 0`, the order that runs `(0, 0)` last leaves `C[0] = 16`. -/
theorem run_tiles_perm_counterexample :
    TM ∣ 1048584 ∧ TN ∣ 4096 ∧ TK ∣ 16 ∧
    ((launch_range 1048584 4096).items.erase (131072, 0) ++ [(131072, 0)]).Perm
      (launch_range 1048584 4096).items ∧
    ((launch_range 1048584 4096).items.erase (0, 0) ++ [(0, 0)]).Perm
      (launch_range 1048584 4096).items ∧
    (run_tiles headA onesM 4096 16
        ((launch_range 1048584 4096).items.erase (131072, 0) ++ [(131072, 0)])
        { C := zerosM, log := [] }).map (fun run => run.C 0) = some 0 ∧
    (run_tiles headA onesM 4096 16
        ((launch_range 1048584 4096).items.erase (0, 0) ++ [(0, 0)])
        { C := zerosM, log := [] }).map (fun run => run.C 0) = some 16 := by
  have hg : (launch_range 1048584 4096).global_size = (131073, 256) := by decide
  have hX : ((131072, 0) : Nat × Nat) ∈ (launch_range 1048584 4096).items := by
    rw [mem_items, hg]; decide
  have hY : ((0, 0) : Nat × Nat) ∈ (launch_range 1048584 4096).items := by
    rw [mem_items, hg]; decide
  refine ⟨by decide, by decide, by decide, erase_append_perm _ _ hX, erase_append_perm _ _ hY,
    ?_, ?_⟩
  · rw [run_tiles_eq headA onesM 4096 16 (by decide), Option.map_some', List.foldl_append]
    simp only [List.foldl_cons, List.foldl_nil]
    rw [body_far_tile]
  · rw [run_tiles_eq headA onesM 4096 16 (by decide), Option.map_some', List.foldl_append]
    simp only [List.foldl_cons, List.foldl_nil]
    rw [body_first_tile]

end Xmx

namespace Xmx

/-! ## Accesses of a body in a shape that fits `int` -/

/-- The loads of a tile of a launch whose `M*K` and `K*N` fit `int`, as row and column
numbers. -/
theorem mem_tile_loads {M N K : Nat} (hMK : M * K < 2 ^ 31) (hKN : K * N < 2 ^ 31)
    (hM : M < 2 ^ 31) (hN : N < 2 ^ 31) {t : Nat × Nat} (h : t.1 < M / 8 ∧ t.2 < N / 16)
    {a : Access} :
    a ∈ tile_loads (N : Int) (K : Int) (tile_origin t).1 (tile_origin t).2 ↔
      ∃ k : Nat, k < K ∧ 16 ∣ k ∧
        ((∃ r c : Nat, r < 8 ∧ c < 16 ∧
            a = ⟨Buf.A, false, (((t.1 * 8 + r) * K + (k + c) : Nat) : Int)⟩) ∨
         (∃ r c : Nat, r < 16 ∧ c < 16 ∧
            a = ⟨Buf.B, false, (((k + r) * N + (t.2 * 16 + c) : Nat) : Int)⟩)) := by
  have hb := item_bounds h
  rw [tile_origin_eq (by omega) (by omega)]
  simp only
  unfold tile_loads
  rw [List.mem_flatMap]
  constructor
  · rintro ⟨k, hk, hmem⟩
    have hw := step_offset_eq hKN hk
    obtain ⟨h0, h1, h2⟩ := mem_k_steps.1 hk
    obtain ⟨kn, rfl⟩ : ∃ kn : Nat, k = (kn : Int) := ⟨k.toNat, by omega⟩
    rw [hw, row_offset_eq hMK h.1] at hmem
    refine ⟨kn, by omega, by omega, ?_⟩
    rcases List.mem_append.1 hmem with hm | hm
    · obtain ⟨r, c, hr, hc, rfl⟩ := mem_tile_accesses.1 hm
      refine Or.inl ⟨r, c, hr, hc, ?_⟩
      refine congrArg (Access.mk _ _) ?_
      push_cast
      ring
    · obtain ⟨r, c, hr, hc, rfl⟩ := mem_tile_accesses.1 hm
      refine Or.inr ⟨r, c, hr, hc, ?_⟩
      refine congrArg (Access.mk _ _) ?_
      push_cast
      ring
  · rintro ⟨k, hk, hd, hcase⟩
    have hks : (k : Int) ∈ k_steps (K : Int) := mem_k_steps.2 ⟨by omega, by omega, by omega⟩
    refine ⟨(k : Int), hks, ?_⟩
    rw [step_offset_eq hKN hks, row_offset_eq hMK h.1]
    rcases hcase with ⟨r, c, hr, hc, rfl⟩ | ⟨r, c, hr, hc, rfl⟩
    · refine List.mem_append_left _ (mem_tile_accesses.2 ⟨r, c, hr, hc, ?_⟩)
      refine congrArg (Access.mk _ _) ?_
      push_cast
      ring
    · refine List.mem_append_right _ (mem_tile_accesses.2 ⟨r, c, hr, hc, ?_⟩)
      refine congrArg (Access.mk _ _) ?_
      push_cast
      ring

/-- The stores of a tile of a launch whose `M*N` fits `int`, as row and column numbers. -/
theorem mem_tile_stores {M N : Nat} (hMN : M * N < 2 ^ 31) (hM : M < 2 ^ 31)
    (hN : N < 2 ^ 31) {t : Nat × Nat} (h : t.1 < M / 8 ∧ t.2 < N / 16) {a : Access} :
    a ∈ tile_accesses Buf.C true
        (wrap32 ((tile_origin t).1 * (N : Int)) + (tile_origin t).2) (N : Int) TM TN ↔
      ∃ r c : Nat, r < 8 ∧ c < 16 ∧
        a = ⟨Buf.C, true, (((t.1 * 8 + r) * N + (t.2 * 16 + c) : Nat) : Int)⟩ := by
  rw [store_offset_eq hMN hM hN h, mem_tile_accesses]
  constructor
  · rintro ⟨r, c, hr, hc, rfl⟩
    refine ⟨r, c, hr, hc, congrArg (Access.mk _ _) ?_⟩
    push_cast
    ring
  · rintro ⟨r, c, hr, hc, rfl⟩
    refine ⟨r, c, hr, hc, congrArg (Access.mk _ _) ?_⟩
    push_cast
    ring

/-- With `TK ∣ K` and index products that fit `int`, every access of a tile of the launch
is inside its buffer. -/
theorem body_accesses_in_bounds {M N K : Nat} (hK : 16 ∣ K) (hMK : M * K < 2 ^ 31)
    (hKN : K * N < 2 ^ 31) (hMN : M * N < 2 ^ 31) (hM : M < 2 ^ 31) (hN : N < 2 ^ 31)
    {t : Nat × Nat} (h : t.1 < M / 8 ∧ t.2 < N / 16) {a : Access}
    (ha : a ∈ body_accesses (N : Int) (K : Int) t) :
    ¬ out_of_bounds (M : Int) (N : Int) (K : Int) a := by
  have hb := item_bounds h
  have key : ∀ (b : Buf) (st : Bool) (x len : Nat), x < len →
      bufLen (M : Int) (N : Int) (K : Int) b = ((len : Nat) : Int) →
      ¬ out_of_bounds (M : Int) (N : Int) (K : Int) ⟨b, st, (x : Int)⟩ := by
    intro b st x len hx hlen
    unfold out_of_bounds
    simp only [hlen]
    omega
  rcases List.mem_append.1 ha with hl | hs
  · obtain ⟨k, hk, hd, hcase⟩ := (mem_tile_loads hMK hKN hM hN h).1 hl
    rcases hcase with ⟨r, c, hr, hc, rfl⟩ | ⟨r, c, hr, hc, rfl⟩
    · exact key _ _ _ (M * K) (row_col_lt (by omega) (by omega)) (by simp [bufLen])
    · exact key _ _ _ (K * N) (row_col_lt (by omega) (by omega)) (by simp [bufLen])
  · obtain ⟨r, c, hr, hc, rfl⟩ := (mem_tile_stores hMN hM hN h).1 hs
    exact key _ _ _ (M * N) (row_col_lt (by omega) (by omega)) (by simp [bufLen])

end Xmx

namespace Xmx

/-! ## Bounds and sub-tile origins -/

/-- C12, amended. For positive `M`, `N` and `K` a multiple of `TK` (in particular for
positive multiples of `TM`, `TN`, `TK`) whose products `M*K`, `K*N`, `M*N` are below
`2^31`: the bodies of all tile ids end, every access they make is inside its buffer, and
for every tile id `(i, j)` with `i < M/TM`, `j < N/TN` and every loop step `k < K`,
`TK ∣ k`, the accesses are the `A` indices `(i*TM + r)*K + k + c` (`r < TM`, `c < TK`),
which are `< M*K`, the `B` indices `(k + r)*N + j*TN + c` (`r < TK`, `c < TN`), which
are `< K*N`, and the `C` indices `(i*TM + r)*N + j*TN + c` (`r < TM`, `c < TN`), which
are `< M*N`. -/
theorem run_tiles_in_bounds {R : Type} [Zero R] [Add R] [Mul R] (A B C : Int → R)
    (M N K : Nat) (hM0 : 0 < M) (hN0 : 0 < N) (hK : TK ∣ K)
    (hMK : M * K < 2 ^ 31) (hKN : K * N < 2 ^ 31) (hMN : M * N < 2 ^ 31) :
    ∃ run, run_tiles A B (N : Int) (K : Int) (launch_range (M : Int) (N : Int)).items
        { C := C, log := [] } = some run ∧
      (∀ a ∈ run.log, ¬ out_of_bounds (M : Int) (N : Int) (K : Int) a) ∧
      (∀ i j k : Nat, i < M / TM → j < N / TN → k < K → TK ∣ k →
        (∀ r c : Nat, r < TM → c < TK →
          (⟨Buf.A, false, (((i * TM + r) * K + k + c : Nat) : Int)⟩ : Access) ∈ run.log ∧
            (i * TM + r) * K + k + c < M * K) ∧
        (∀ r c : Nat, r < TK → c < TN →
          (⟨Buf.B, false, (((k + r) * N + j * TN + c : Nat) : Int)⟩ : Access) ∈ run.log ∧
            (k + r) * N + j * TN + c < K * N) ∧
        (∀ r c : Nat, r < TM → c < TN →
          (⟨Buf.C, true, (((i * TM + r) * N + j * TN + c : Nat) : Int)⟩ : Access) ∈ run.log ∧
            (i * TM + r) * N + j * TN + c < M * N)) := by
  have hM31 : M < 2 ^ 31 := lt_of_le_of_lt (Nat.le_mul_of_pos_right M hN0) hMN
  have hN31 : N < 2 ^ 31 := lt_of_le_of_lt (Nat.le_mul_of_pos_left N hM0) hMN
  have hK31 : K < 2 ^ 31 := lt_of_le_of_lt (Nat.le_mul_of_pos_right K hN0) hKN
  have hdK : 16 ∣ K := hK
  have hTM : TM = 8 := rfl
  have hTN : TN = 16 := rfl
  have hTK : TK = 16 := rfl
  refine ⟨_, run_tiles_eq A B N K (by omega) _ _, ?_, ?_⟩
  · intro a ha
    rw [foldl_body_run_log, List.nil_append, List.mem_flatMap] at ha
    obtain ⟨id, hid, hmem⟩ := ha
    exact body_accesses_in_bounds hdK hMK hKN hMN hM31 hN31
      ((mem_launch_items hM31 hN31).1 hid) hmem
  · intro i j k hi hj hk hdk
    rw [hTM] at hi
    rw [hTN] at hj
    have hdk16 : 16 ∣ k := hdk
    have hid : (i, j) ∈ (launch_range (M : Int) (N : Int)).items :=
      (mem_launch_items hM31 hN31).2 ⟨hi, hj⟩
    have hin : ∀ a : Access, a ∈ body_accesses (N : Int) (K : Int) (i, j) →
        a ∈ (List.foldl (fun s id => body_run A B (N : Int) (K : Int) id s)
          { C := C, log := [] } (launch_range (M : Int) (N : Int)).items).log := by
      intro a ha
      rw [foldl_body_run_log, List.nil_append, List.mem_flatMap]
      exact ⟨(i, j), hid, ha⟩
    have hb := item_bounds (M := M) (N := N) (t := (i, j)) ⟨hi, hj⟩
    simp only at hb
    refine ⟨?_, ?_, ?_⟩
    · intro r c hr hc
      rw [hTM] at hr ⊢
      rw [hTK] at hc
      refine ⟨hin _ (List.mem_append_left _
        ((mem_tile_loads hMK hKN hM31 hN31 (t := (i, j)) ⟨hi, hj⟩).2
          ⟨k, hk, hdk16, Or.inl ⟨r, c, hr, hc, ?_⟩⟩)), ?_⟩
      · refine congrArg (Access.mk _ _) ?_
        push_cast
        ring
      · have := row_col_lt (a := i * 8 + r) (b := k + c) (m := M) (k := K) (by omega) (by omega)
        omega
    · intro r c hr hc
      rw [hTK] at hr
      rw [hTN] at hc ⊢
      refine ⟨hin _ (List.mem_append_left _
        ((mem_tile_loads hMK hKN hM31 hN31 (t := (i, j)) ⟨hi, hj⟩).2
          ⟨k, hk, hdk16, Or.inr ⟨r, c, hr, hc, ?_⟩⟩)), ?_⟩
      · refine congrArg (Access.mk _ _) ?_
        push_cast
        ring
      · have := row_col_lt (a := k + r) (b := j * 16 + c) (m := K) (k := N) (by omega) (by omega)
        omega
    · intro r c hr hc
      rw [hTM] at hr ⊢
      rw [hTN] at hc ⊢
      refine ⟨hin _ (List.mem_append_right _
        ((mem_tile_stores hMN hM31 hN31 (t := (i, j)) ⟨hi, hj⟩).2 ⟨r, c, hr, hc, ?_⟩)), ?_⟩
      · refine congrArg (Access.mk _ _) ?_
        push_cast
        ring
      · have := row_col_lt (a := i * 8 + r) (b := j * 16 + c) (m := M) (k := N) (by omega)
          (by omega)
        omega

theorem run_tiles_in_bounds_witness :
    0 < 16 ∧ 0 < 32 ∧ TK ∣ 32 ∧ 16 * 32 < 2 ^ 31 ∧ 32 * 32 < 2 ^ 31 ∧ 16 * 32 < 2 ^ 31 ∧
    ∃ run, run_tiles idA rampB ((32 : Nat) : Int) ((32 : Nat) : Int)
        (launch_range ((16 : Nat) : Int) ((32 : Nat) : Int)).items
        { C := fun _ => 7, log := [] } = some run ∧
      (∀ a ∈ run.log, ¬ out_of_bounds ((16 : Nat) : Int) ((32 : Nat) : Int)
        ((32 : Nat) : Int) a) ∧
      (⟨Buf.A, false, (((1 * TM + 3) * 32 + 16 + 5 : Nat) : Int)⟩ : Access) ∈ run.log ∧
      (1 * TM + 3) * 32 + 16 + 5 < 16 * 32 := by
  obtain ⟨run, h1, h2, h3⟩ := run_tiles_in_bounds idA rampB (fun _ => 7) 16 32 32
    (by decide) (by decide) (by decide) (by decide) (by decide) (by decide)
  exact ⟨by decide, by decide, by decide, by decide, by decide, by decide, run, h1, h2,
    ((h3 1 0 16 (by decide) (by decide) (by decide) (by decide)).1 3 5 (by decide)
      (by decide))⟩

set_option maxRecDepth 100000 in
/-- C12 as stated fails: for `M = 134217736`, `N = 16`, `K = 16` (multiples of the tile
shape) the body of tile id `(16777216, 0)` loads `A` at index `-2147483648`
(`m_idx * K = 2^31` overflows), which is outside the buffer; the index the claim names
is `2147483648`. -/
theorem run_tiles_in_bounds_counterexample :
    TM ∣ 134217736 ∧ TN ∣ 16 ∧ TK ∣ 16 ∧
    ((16777216, 0) : Nat × Nat) ∈ (launch_range 134217736 16).items ∧
    (kernel_body onesM onesM 16 16 (16777216, 0) { C := zerosM, log := [] }).map
        (fun run => run.log.head?) = some (some ⟨Buf.A, false, -2147483648⟩) ∧
    out_of_bounds 134217736 16 16 ⟨Buf.A, false, -2147483648⟩ ∧
    ((16777216 * TM + 0) * 16 + 0 + 0 : Int) = 2147483648 := by
  have hg : (launch_range 134217736 16).global_size = (16777217, 1) := by decide
  refine ⟨by decide, by decide, by decide, ?_, by decide, by decide, by decide⟩
  rw [mem_items, hg]
  decide

end Xmx

namespace Xmx

/-- C13, amended. For a tile `(tile_row, tile_col)` of a launch whose products `M*K`,
`K*N`, `M*N` are below `2^31`: the body ends; its loop steps are the multiples `k` of
`TK` with `0 ≤ k < K`; at step `k` the `A` sub-tile is loaded from offset
`tile_row*TM*K + k` with row stride `K` and the `B` sub-tile from offset
`k*N + tile_col*TN` with row stride `N`, both for the accumulator and in the access
log; the accumulator is stored at offset `tile_row*TM*N + tile_col*TN` with row stride
`N`. -/
theorem kernel_body_sub_tiles {R : Type} [Zero R] [Add R] [Mul R] (A B : Int → R)
    (M N K : Nat) (hMK : M * K < 2 ^ 31) (hKN : K * N < 2 ^ 31) (hMN : M * N < 2 ^ 31)
    (tile_row tile_col : Nat) (hrow : tile_row < M / TM) (hcol : tile_col < N / TN)
    (s : Run R) :
    ∃ run, kernel_body A B (N : Int) (K : Int) (tile_row, tile_col) s = some run ∧
      (∀ k : Int, k ∈ k_steps (K : Int) ↔ 0 ≤ k ∧ k < (K : Int) ∧ (16 : Int) ∣ k) ∧
      run.C =
        joint_matrix_store s.C (((tile_row * TM * N + tile_col * TN : Nat) : Int)) (N : Int)
          TM TN
          ((k_steps (K : Int)).foldl
            (fun t k => joint_matrix_mad
              (joint_matrix_load A (((tile_row * TM * K : Nat) : Int) + k) (K : Int))
              (joint_matrix_load B (k * (N : Int) + ((tile_col * TN : Nat) : Int)) (N : Int)) t)
            (joint_matrix_fill 0)) ∧
      run.log =
        s.log ++ ((k_steps (K : Int)).flatMap fun k =>
            tile_accesses Buf.A false (((tile_row * TM * K : Nat) : Int) + k) (K : Int) TM TK ++
            tile_accesses Buf.B false (k * (N : Int) + ((tile_col * TN : Nat) : Int)) (N : Int)
              TK TN) ++
          tile_accesses Buf.C true (((tile_row * TM * N + tile_col * TN : Nat) : Int)) (N : Int)
            TM TN := by
  have hrow8 : tile_row < M / 8 := hrow
  have hcol16 : tile_col < N / 16 := hcol
  have hN16 : 16 ≤ N := by omega
  have hM8 : 8 ≤ M := by omega
  have hM31 : M < 2 ^ 31 :=
    lt_of_le_of_lt (Nat.le_mul_of_pos_right M (by omega)) hMN
  have hN31 : N < 2 ^ 31 :=
    lt_of_le_of_lt (Nat.le_mul_of_pos_left N (by omega)) hMN
  have hK27 : K * 16 ≤ K * N := Nat.mul_le_mul_left _ hN16
  have ho := tile_origin_eq (t := (tile_row, tile_col)) (by simp only; omega)
    (by simp only; omega)
  have hA := row_offset_eq hMK hrow8
  have hC := store_offset_eq hMN hM31 hN31 (t := (tile_row, tile_col)) ⟨hrow8, hcol16⟩
  rw [ho] at hC
  simp only at hC
  have e1 : ((tile_row * TM * K : Nat) : Int) = ((tile_row * 8 * K : Nat) : Int) := rfl
  have e2 : ((tile_row * TM * N + tile_col * TN : Nat) : Int)
      = ((tile_row * 8 * N + tile_col * 16 : Nat) : Int) := rfl
  have e3 : ((tile_col * TN : Nat) : Int) = ((tile_col * 16 : Nat) : Int) := rfl
  rw [e1, e2, e3]
  refine ⟨_, kernel_body_eq A B N K (by omega) _ s, fun k => mem_k_steps, ?_, ?_⟩
  · simp only [body_run, tile_acc]
    rw [ho]
    simp only
    rw [hC, hA]
    refine congrArg _ ?_
    apply foldl_congr_mem
    intro k hk t
    rw [step_offset_eq hKN hk]
  · simp only [body_run, body_accesses, tile_loads]
    rw [ho]
    simp only
    rw [hC, hA, List.append_assoc]
    refine congrArg _ (congrArg (fun l => l ++ _) ?_)
    apply flatMap_congr_mem
    intro k hk
    rw [step_offset_eq hKN hk]

theorem kernel_body_sub_tiles_witness :
    16 * 32 < 2 ^ 31 ∧ 32 * 32 < 2 ^ 31 ∧ 16 * 32 < 2 ^ 31 ∧ 1 < 16 / TM ∧ 1 < 32 / TN ∧
    ∃ run, kernel_body idA rampB ((32 : Nat) : Int) ((32 : Nat) : Int) (1, 1)
        { C := fun _ => 7, log := [] } = some run ∧
      (∀ k : Int, k ∈ k_steps ((32 : Nat) : Int) ↔
        0 ≤ k ∧ k < ((32 : Nat) : Int) ∧ (16 : Int) ∣ k) ∧
      run.C =
        joint_matrix_store (fun _ => 7) (((1 * TM * 32 + 1 * TN : Nat) : Int))
          ((32 : Nat) : Int) TM TN
          ((k_steps ((32 : Nat) : Int)).foldl
            (fun t k => joint_matrix_mad
              (joint_matrix_load idA (((1 * TM * 32 : Nat) : Int) + k) ((32 : Nat) : Int))
              (joint_matrix_load rampB (k * ((32 : Nat) : Int) + ((1 * TN : Nat) : Int))
                ((32 : Nat) : Int)) t)
            (joint_matrix_fill 0)) ∧
      run.log =
        [] ++ ((k_steps ((32 : Nat) : Int)).flatMap fun k =>
            tile_accesses Buf.A false (((1 * TM * 32 : Nat) : Int) + k) ((32 : Nat) : Int)
              TM TK ++
            tile_accesses Buf.B false (k * ((32 : Nat) : Int) + ((1 * TN : Nat) : Int))
              ((32 : Nat) : Int) TK TN) ++
          tile_accesses Buf.C true (((1 * TM * 32 + 1 * TN : Nat) : Int)) ((32 : Nat) : Int)
            TM TN :=
  ⟨by decide, by decide, by decide, by decide, by decide,
   kernel_body_sub_tiles idA rampB 16 32 32 (by decide) (by decide) (by decide) 1 1
     (by decide) (by decide) { C := fun _ => 7, log := [] }⟩

set_option maxRecDepth 100000 in
/-- C13 as stated fails: for the tile `(16777216, 0)` with `N = K = 16` the claimed `A`
offset and store offset are `tile_row*TM*K + 0 = tile_row*TM*N + 0 = 2147483648`, but
the body loads `A` from offset `-2147483648` and its last store (element `(7, 15)` of
the tile) is at `-2147483648 + 7*16 + 15`: the `int` products overflow. -/
theorem kernel_body_sub_tiles_counterexample :
    ((16777216 * TM * 16 + 0 : Nat) : Int) = 2147483648 ∧
    (kernel_body onesM onesM 16 16 (16777216, 0) { C := zerosM, log := [] }).map
        (fun run => run.log.head?) = some (some ⟨Buf.A, false, -2147483648⟩) ∧
    (kernel_body onesM onesM 16 16 (16777216, 0) { C := zerosM, log := [] }).map
        (fun run => run.log.getLast?) =
      some (some ⟨Buf.C, true, -2147483648 + 7 * 16 + 15⟩) := by
  decide

end Xmx

namespace Xmx

/-! ## Output tiles: cover and frame -/

/-- The stores in the log of a body are exactly its store region, in `C`. -/
theorem mem_body_accesses_store {N K : Int} {id : Nat × Nat} {a : Access} :
    (a ∈ body_accesses N K id ∧ a.isStore = true) ↔
      ∃ i ∈ store_region N id, a = ⟨Buf.C, true, i⟩ := by
  unfold body_accesses tile_loads store_region tile_accesses
  constructor
  · rintro ⟨hmem, hst⟩
    rcases List.mem_append.1 hmem with hl | hs
    · rw [List.mem_flatMap] at hl
      obtain ⟨k, _, hk⟩ := hl
      rcases List.mem_append.1 hk with h1 | h1
      · obtain ⟨i, _, rfl⟩ := List.mem_map.1 h1
        cases hst
      · obtain ⟨i, _, rfl⟩ := List.mem_map.1 h1
        cases hst
    · obtain ⟨i, hi, rfl⟩ := List.mem_map.1 hs
      exact ⟨i, hi, rfl⟩
  · rintro ⟨i, hi, rfl⟩
    exact ⟨List.mem_append_right _ (List.mem_map.2 ⟨i, hi, rfl⟩), rfl⟩

/-- No access of a body to `A` or `B` is a store. -/
theorem body_accesses_kind {N K : Int} {id : Nat × Nat} {a : Access}
    (ha : a ∈ body_accesses N K id) :
    (a.isStore = true → a.buf = Buf.C) ∧ (a.buf = Buf.A ∨ a.buf = Buf.B → a.isStore = false) := by
  unfold body_accesses tile_loads tile_accesses at ha
  rcases List.mem_append.1 ha with hl | hs
  · rw [List.mem_flatMap] at hl
    obtain ⟨k, _, hk⟩ := hl
    rcases List.mem_append.1 hk with h1 | h1
    · obtain ⟨i, _, rfl⟩ := List.mem_map.1 h1
      exact ⟨fun e => (by cases e), fun _ => rfl⟩
    · obtain ⟨i, _, rfl⟩ := List.mem_map.1 h1
      exact ⟨fun e => (by cases e), fun _ => rfl⟩
  · obtain ⟨i, _, rfl⟩ := List.mem_map.1 hs
    exact ⟨fun _ => rfl, fun e => (by rcases e with e | e <;> cases e)⟩

theorem body_run_log_nil {R : Type} [Zero R] [Add R] [Mul R] (A B C : Int → R) (N K : Int)
    (id : Nat × Nat) :
    (body_run A B N K id { C := C, log := [] }).log = body_accesses N K id := by
  simp only [body_run, List.nil_append]

/-- C14, amended. For `M`, `N` positive multiples of `TM`, `TN` with `M*N` below `2^31`
(and a loop bound `K ≤ 2^31 - 16`, so that the bodies end): the body of every tile id
`(i, j)`, `i < M/TM`, `j < N/TN`, stores only to `C`, at indices below `M*N`; the
stores of two different tile ids share no index; and every index below `M*N` is stored
by the body of exactly one tile id. -/
theorem store_regions_disjoint_cover {R : Type} [Zero R] [Add R] [Mul R] (A B C : Int → R)
    (M N K : Nat) (hM0 : 0 < M) (hN0 : 0 < N) (hM : TM ∣ M) (hN : TN ∣ N)
    (hMN : M * N < 2 ^ 31) (hK : K ≤ 2 ^ 31 - 16) :
    (∀ id ∈ (launch_range (M : Int) (N : Int)).items,
      ∃ run, kernel_body A B (N : Int) (K : Int) id { C := C, log := [] } = some run ∧
        ∀ a ∈ run.log, a.isStore = true →
          a.buf = Buf.C ∧ 0 ≤ a.idx ∧ a.idx < ((M * N : Nat) : Int)) ∧
    (∀ id ∈ (launch_range (M : Int) (N : Int)).items,
      ∀ id2 ∈ (launch_range (M : Int) (N : Int)).items, id ≠ id2 →
      ∀ run run2, kernel_body A B (N : Int) (K : Int) id { C := C, log := [] } = some run →
        kernel_body A B (N : Int) (K : Int) id2 { C := C, log := [] } = some run2 →
        ∀ a ∈ run.log, a.isStore = true → a ∉ run2.log) ∧
    (∀ i : Nat, i < M * N →
      ∃! id, id ∈ (launch_range (M : Int) (N : Int)).items ∧
        ∃ run, kernel_body A B (N : Int) (K : Int) id { C := C, log := [] } = some run ∧
          (⟨Buf.C, true, (i : Int)⟩ : Access) ∈ run.log) := by
  have hM31 : M < 2 ^ 31 := lt_of_le_of_lt (Nat.le_mul_of_pos_right M hN0) hMN
  have hN31 : N < 2 ^ 31 := lt_of_le_of_lt (Nat.le_mul_of_pos_left N hM0) hMN
  have hdM : 8 ∣ M := hM
  have hdN : 16 ∣ N := hN
  have hKi : (K : Int) ≤ 2 ^ 31 - 16 := by omega
  have hbody : ∀ id, kernel_body A B (N : Int) (K : Int) id { C := C, log := [] } =
      some (body_run A B (N : Int) (K : Int) id { C := C, log := [] }) :=
    fun id => kernel_body_eq A B N K hKi id _
  refine ⟨?_, ?_, ?_⟩
  · intro id hid
    have hid2 := (mem_launch_items hM31 hN31).1 hid
    have hb := item_bounds hid2
    refine ⟨_, hbody id, ?_⟩
    intro a ha hst
    rw [body_run_log_nil] at ha
    obtain ⟨i, hi, rfl⟩ := mem_body_accesses_store.1 ⟨ha, hst⟩
    obtain ⟨r, c, hr, hc, rfl⟩ := (mem_store_region hMN hM31 hN31 hid2).1 hi
    have hlt : (id.1 * 8 + r) * N + (id.2 * 16 + c) < M * N :=
      row_col_lt (by omega) (by omega)
    have hlt2 : (((id.1 * 8 + r) * N + (id.2 * 16 + c) : Nat) : Int) < ((M * N : Nat) : Int) :=
      Int.ofNat_lt.2 hlt
    exact ⟨rfl, Int.natCast_nonneg _, hlt2⟩
  · intro id hid id2 hid2 hne run run2 h1 h2 a ha hst ha2
    rw [hbody id] at h1
    rw [hbody id2] at h2
    cases h1
    cases h2
    rw [body_run_log_nil] at ha ha2
    obtain ⟨i, hi, rfl⟩ := mem_body_accesses_store.1 ⟨ha, hst⟩
    obtain ⟨i2, hi2, e⟩ := mem_body_accesses_store.1 ⟨ha2, rfl⟩
    have e2 : i = i2 := by
      have := congrArg Access.idx e
      exact this
    rw [← e2] at hi2
    exact hne (store_region_inj hMN hM31 hN31 ((mem_launch_items hM31 hN31).1 hid)
      ((mem_launch_items hM31 hN31).1 hid2) hi hi2)
  · intro i hi
    have hr : i / N < M := by
      rw [Nat.div_lt_iff_lt_mul hN0]; exact hi
    have hc : i % N < N := Nat.mod_lt _ hN0
    obtain ⟨hid, hmem⟩ := covered hMN hM31 hN31 hdM hdN hr hc
    rw [Nat.div_add_mod' i N] at hmem
    refine ⟨(i / N / 8, i % N / 16), ⟨(mem_launch_items hM31 hN31).2 hid, _, hbody _, ?_⟩, ?_⟩
    · rw [body_run_log_nil]
      exact (mem_body_accesses_store.2 ⟨_, hmem, rfl⟩).1
    · rintro id2 ⟨hid2, run2, h2, hin⟩
      rw [hbody id2] at h2
      cases h2
      rw [body_run_log_nil] at hin
      obtain ⟨i2, hi2, e⟩ := mem_body_accesses_store.1 ⟨hin, rfl⟩
      have e2 : (i : Int) = i2 := congrArg Access.idx e
      rw [← e2] at hi2
      exact store_region_inj hMN hM31 hN31 ((mem_launch_items hM31 hN31).1 hid2) hid hi2 hmem

theorem store_regions_disjoint_cover_witness :
    0 < 16 ∧ 0 < 32 ∧ TM ∣ 16 ∧ TN ∣ 32 ∧ 16 * 32 < 2 ^ 31 ∧ 16 ≤ 2 ^ 31 - 16 ∧
    ∃! id, id ∈ (launch_range ((16 : Nat) : Int) ((32 : Nat) : Int)).items ∧
      ∃ run, kernel_body idA rampB ((32 : Nat) : Int) ((16 : Nat) : Int) id
          { C := fun _ => 7, log := [] } = some run ∧
        (⟨Buf.C, true, ((300 : Nat) : Int)⟩ : Access) ∈ run.log :=
  ⟨by decide, by decide, by decide, by decide, by decide, by decide,
   (store_regions_disjoint_cover idA rampB (fun _ => 7) 16 32 16 (by decide) (by decide)
      (by decide) (by decide) (by decide) (by decide)).2.2 300 (by decide)⟩

set_option maxRecDepth 100000 in
/-- C14 as stated fails: for `M = 1048584`, `N = 4096` (multiples of `TM`, `TN`) the
bodies of the two different tile ids `(0, 0)` and `(131072, 0)` both store to index `0`
of `C` (`m_idx * N = 2^32` wraps to `0`). -/
theorem store_regions_disjoint_cover_counterexample :
    0 < 1048584 ∧ 0 < 4096 ∧ TM ∣ 1048584 ∧ TN ∣ 4096 ∧
    ((0, 0) : Nat × Nat) ∈ (launch_range 1048584 4096).items ∧
    ((131072, 0) : Nat × Nat) ∈ (launch_range 1048584 4096).items ∧
    ((0, 0) : Nat × Nat) ≠ (131072, 0) ∧
    (kernel_body onesM onesM 4096 16 (0, 0) { C := zerosM, log := [] }).map
        (fun run => decide ((⟨Buf.C, true, 0⟩ : Access) ∈ run.log)) = some true ∧
    (kernel_body onesM onesM 4096 16 (131072, 0) { C := zerosM, log := [] }).map
        (fun run => decide ((⟨Buf.C, true, 0⟩ : Access) ∈ run.log)) = some true := by
  have hg : (launch_range 1048584 4096).global_size = (131073, 256) := by decide
  refine ⟨by decide, by decide, by decide, by decide, ?_, ?_, by decide, by decide, by decide⟩
  · rw [mem_items, hg]; decide
  · rw [mem_items, hg]; decide

end Xmx

namespace Xmx

/-- Every element a launch whose `M*N` fits `int` stores to lies in a row and a column
covered by tiles. -/
theorem stored_in_region {M N : Nat} (hMN : M * N < 2 ^ 31) (hM : M < 2 ^ 31)
    (hN : N < 2 ^ 31) {id : Nat × Nat} (hid : id ∈ (launch_range (M : Int) (N : Int)).items)
    {i : Int} (hi : i ∈ store_region (N : Int) id) :
    ∃ r c : Nat, r < M / 8 * 8 ∧ c < N / 16 * 16 ∧ c < N ∧ i = ((r * N + c : Nat) : Int) := by
  have hid2 := (mem_launch_items hM hN).1 hid
  have hb := item_bounds hid2
  obtain ⟨r, c, hr, hc, rfl⟩ := (mem_store_region hMN hM hN hid2).1 hi
  exact ⟨id.1 * 8 + r, id.2 * 16 + c, by omega, by omega, by omega, rfl⟩

/-- C19, amended. For non-negative `int` shapes `M`, `N`, `K` (divisible or not) with
`M*N` below `2^31` and `K ≤ 2^31 - 16`: the bodies of all tile ids end; no access to `A`
or `B` is a store (every store goes to `C`); element `(r, c)` of `C` (`c < N`) with
`r ≥ (M/TM)*TM` or `c ≥ (N/TN)*TN` keeps its prior value; and every element whose
value changed is an element `(r, c)` with `r < (M/TM)*TM` and `c < (N/TN)*TN`. -/
theorem run_tiles_frame {R : Type} [Zero R] [Add R] [Mul R] (A B C : Int → R)
    (M N K : Nat) (hM : M < 2 ^ 31) (hN : N < 2 ^ 31) (hMN : M * N < 2 ^ 31)
    (hK : K ≤ 2 ^ 31 - 16) :
    ∃ run, run_tiles A B (N : Int) (K : Int) (launch_range (M : Int) (N : Int)).items
        { C := C, log := [] } = some run ∧
      (∀ a ∈ run.log,
        (a.isStore = true → a.buf = Buf.C) ∧
        (a.buf = Buf.A ∨ a.buf = Buf.B → a.isStore = false)) ∧
      (∀ r c : Nat, c < N → (M / TM * TM ≤ r ∨ N / TN * TN ≤ c) →
        run.C ((r * N + c : Nat) : Int) = C ((r * N + c : Nat) : Int)) ∧
      (∀ i : Int, run.C i ≠ C i →
        ∃ r c : Nat, r < M / TM * TM ∧ c < N / TN * TN ∧ i = ((r * N + c : Nat) : Int)) := by
  have hKi : (K : Int) ≤ 2 ^ 31 - 16 := by omega
  have hTM : TM = 8 := rfl
  have hTN : TN = 16 := rfl
  refine ⟨_, run_tiles_eq A B N K hKi _ _, ?_, ?_, ?_⟩
  · intro a ha
    rw [foldl_body_run_log, List.nil_append, List.mem_flatMap] at ha
    obtain ⟨id, _, hmem⟩ := ha
    exact body_accesses_kind hmem
  · intro r c hc hout
    rw [hTM, hTN] at hout
    apply foldl_body_run_frame
    intro id hid hmem
    obtain ⟨r2, c2, hr2, hc2, hc2N, e⟩ := stored_in_region hMN hM hN hid hmem
    have e2 : r * N + c = r2 * N + c2 := by exact_mod_cast e
    obtain ⟨e3, e4⟩ := row_col_unique hc hc2N e2
    omega
  · intro i hi
    by_contra hno
    apply hi
    apply foldl_body_run_frame
    intro id hid hmem
    obtain ⟨r2, c2, hr2, hc2, _, e⟩ := stored_in_region hMN hM hN hid hmem
    exact hno ⟨r2, c2, by rw [hTM]; exact hr2, by rw [hTN]; exact hc2, e⟩

theorem run_tiles_frame_witness :
    12 < 2 ^ 31 ∧ 20 < 2 ^ 31 ∧ 12 * 20 < 2 ^ 31 ∧ 17 ≤ 2 ^ 31 - 16 ∧
    ∃ run, run_tiles idA rampB ((20 : Nat) : Int) ((17 : Nat) : Int)
        (launch_range ((12 : Nat) : Int) ((20 : Nat) : Int)).items
        { C := fun i => i, log := [] } = some run ∧
      (∀ a ∈ run.log,
        (a.isStore = true → a.buf = Buf.C) ∧
        (a.buf = Buf.A ∨ a.buf = Buf.B → a.isStore = false)) ∧
      (∀ r c : Nat, c < 20 → (12 / TM * TM ≤ r ∨ 20 / TN * TN ≤ c) →
        run.C ((r * 20 + c : Nat) : Int) = (fun i : Int => i) ((r * 20 + c : Nat) : Int)) ∧
      (∀ i : Int, run.C i ≠ (fun i : Int => i) i →
        ∃ r c : Nat, r < 12 / TM * TM ∧ c < 20 / TN * TN ∧ i = ((r * 20 + c : Nat) : Int)) :=
  ⟨by decide, by decide, by decide, by decide,
   run_tiles_frame idA rampB (fun i => i) 12 20 17 (by decide) (by decide) (by decide)
     (by decide)⟩

set_option maxRecDepth 100000 in
/-- C19 as stated fails.  For `M = 134217736`, `N = 16`, `K = 16` the bodies of all tile
ids change the element at offset `-2147483648` of `C` from `0` to `16` (`m_idx * N`
overflows for tile `(16777216, 0)`); that offset is no element `r*N + c`.  For
`M = -8` the global range is `(2^64 - 1, 1)` and the body of tile `(0, 0)` stores `16`
to element `(0, 0)`, a row `r ≥ (M/TM)*TM = -8`. -/
theorem run_tiles_frame_counterexample :
    (run_tiles onesM onesM 16 16 (launch_range 134217736 16).items
        { C := zerosM, log := [] }).map (fun run => run.C (-2147483648)) = some 16 ∧
    zerosM (-2147483648) = 0 ∧
    (¬ ∃ r c : Nat, (-2147483648 : Int) = ((r * 16 + c : Nat) : Int)) ∧
    Int.tdiv (-8) TM * TM = -8 ∧
    ((0, 0) : Nat × Nat) ∈ (launch_range (-8) 16).items ∧
    (kernel_body onesM onesM 16 16 (0, 0) { C := zerosM, log := [] }).map
        (fun run => decide ((⟨Buf.C, true, 0⟩ : Access) ∈ run.log)) = some true ∧
    (kernel_body onesM onesM 16 16 (0, 0) { C := zerosM, log := [] }).map
        (fun run => run.C 0) = some 16 := by
  have hg : (launch_range 134217736 16).global_size = (16777217, 1) := by decide
  have hg2 : (launch_range (-8) 16).global_size = (18446744073709551615, 1) := by decide
  refine ⟨?_, rfl, ?_, by decide, ?_, by decide, by decide⟩
  · rw [run_tiles_eq onesM onesM 16 16 (by decide), Option.map_some']
    have hown := foldl_body_run_own onesM onesM 16 16 (by decide)
      (launch_range 134217736 16).items { C := zerosM, log := [] } (16777216, 0)
      (by rw [mem_items, hg]; decide) 0 0 (by decide) (by decide)
    have e : wrap32 ((tile_origin (16777216, 0)).1 * 16) + (tile_origin (16777216, 0)).2
        + ((0 : Nat) : Int) * 16 + ((0 : Nat) : Int) = -2147483648 := by decide
    rw [e] at hown
    have v : tile_acc onesM onesM 16 16 (tile_origin (16777216, 0)).1
        (tile_origin (16777216, 0)).2 0 0 = 16 := by decide
    rw [hown, v]
    intro id hid hmem
    rw [mem_items, hg] at hid
    unfold store_region at hmem
    obtain ⟨r, c, hr, hc, e2⟩ := mem_tile_indices.1 hmem
    unfold tile_origin size_t_to_int wrap32 at e2
    simp only [TM, TN] at e2 hr hc
    obtain ⟨i, j⟩ := id
    simp only at hid e2
    have hj : j = 0 := by omega
    have hi : i = 16777216 := by omega
    rw [hi, hj]
  · rintro ⟨r, c, e⟩
    omega
  · rw [mem_items, hg2]
    decide

/-! ## Shapes that violate divisibility -/

/-- C8, amended. For positive `K` not a multiple of `TK` with `K*N` below `2^31`: every
work-item `(i, j)` of the launch (`i < M/TM`, `j < N/TN`) that runs the kernel body
performs a load of `B` at an element index outside the `K*N` buffer. -/
theorem kernel_body_out_of_bounds {R : Type} [Zero R] [Add R] [Mul R] (A B : Int → R)
    (M N K : Nat) (hK : ¬ TK ∣ K) (hKN : K * N < 2 ^ 31)
    (id : Nat × Nat) (hid : id ∈ (launch_range (M : Int) (N : Int)).items) (s : Run R) :
    ∃ run, kernel_body A B (N : Int) (K : Int) id s = some run ∧
      ∃ a ∈ run.log, a.buf = Buf.B ∧ a.isStore = false ∧
        out_of_bounds (M : Int) (N : Int) (K : Int) a := by
  have hK16 : ¬ 16 ∣ K := hK
  have hK0 : 0 < K := by omega
  have hN31 : N < 2 ^ 31 := lt_of_le_of_lt (Nat.le_mul_of_pos_left N hK0) hKN
  have h2 : Int.tdiv (N : Int) ((TN : Nat) : Int) = ((N / 16 : Nat) : Int) := rfl
  have hj : id.2 < N / 16 := by
    have := (mem_items.1 hid).2
    unfold launch_range at this
    simp only at this
    rw [h2, to_size_t_natCast (by omega)] at this
    exact this
  have hN16 : 16 ≤ N := by omega
  have hK27 : K * 16 ≤ K * N := Nat.mul_le_mul_left _ hN16
  have hks : ((K / 16 * 16 : Nat) : Int) ∈ k_steps (K : Int) :=
    mem_k_steps.2 ⟨by omega, by omega, by omega⟩
  refine ⟨_, kernel_body_eq A B N K (by omega) id s,
    ⟨Buf.B, false, wrap32 (((K / 16 * 16 : Nat) : Int) * (N : Int)) + (tile_origin id).2
      + ((15 : Nat) : Int) * (N : Int) + ((0 : Nat) : Int)⟩, ?_, rfl, rfl, ?_⟩
  · simp only [body_run, body_accesses, tile_loads]
    refine List.mem_append_right _ (List.mem_append_left _ ?_)
    rw [List.mem_flatMap]
    exact ⟨_, hks, List.mem_append_right _
      (mem_tile_accesses.2 ⟨15, 0, by decide, by decide, rfl⟩)⟩
  · have hn : (tile_origin id).2 = ((id.2 * 16 : Nat) : Int) := by
      have hTN : id.2 * TN = id.2 * 16 := rfl
      have hlt : id.2 * 16 < 2 ^ 31 := by omega
      unfold tile_origin
      simp only
      rw [hTN]
      exact size_t_to_int_eq hlt
    have hle : K * N ≤ (K / 16 * 16 + 15) * N := Nat.mul_le_mul_right _ (by omega)
    have hle2 : ((K * N : Nat) : Int) ≤ (((K / 16 * 16 + 15) * N : Nat) : Int) :=
      Int.ofNat_le.2 hle
    right
    simp only [bufLen]
    rw [step_offset_eq hKN hks, hn]
    push_cast at hle2 ⊢
    nlinarith [hle2]

theorem kernel_body_out_of_bounds_witness :
    ¬ TK ∣ 17 ∧ 17 * 16 < 2 ^ 31 ∧
    ((0, 0) : Nat × Nat) ∈ (launch_range ((8 : Nat) : Int) ((16 : Nat) : Int)).items ∧
    ∃ run, kernel_body idA rampB ((16 : Nat) : Int) ((17 : Nat) : Int) (0, 0)
        { C := fun _ => 7, log := [] } = some run ∧
      ∃ a ∈ run.log, a.buf = Buf.B ∧ a.isStore = false ∧
        out_of_bounds ((8 : Nat) : Int) ((16 : Nat) : Int) ((17 : Nat) : Int) a :=
  ⟨by decide, by decide, by decide,
   kernel_body_out_of_bounds idA rampB 8 16 17 (by decide) (by decide) (0, 0) (by decide)
     { C := fun _ => 7, log := [] }⟩

set_option maxRecDepth 100000 in
/-- C8 as stated fails: `M = 9` is not a multiple of `TM`, yet with `N = 16`, `K = 16`
the bodies of all tile ids make no access outside the buffers (and the launch itself is
refused, so that it makes no access at all). -/
theorem kernel_body_out_of_bounds_counterexample :
    0 < 9 ∧ 0 < 16 ∧ ¬ (TM ∣ 9 ∧ TN ∣ 16 ∧ TK ∣ 16) ∧
    (run_tiles onesM onesM 16 16 (launch_range 9 16).items { C := zerosM, log := [] }).map
        (fun run => decide (∃ a ∈ run.log, out_of_bounds 9 16 16 a)) = some false ∧
    ¬ (launch_range 9 16).valid := by
  decide

end Xmx

namespace Xmx

/-! ## The launch -/

/-- For multiples `M`, `N` of `TM`, `TN` (as `int` values) the launch range is valid
exactly when `M` is positive and `N` is a positive multiple of `16 * TN`. -/
theorem launch_range_valid_iff (M N : Nat) (hM31 : M < 2 ^ 31) (hN31 : N < 2 ^ 31)
    (hM : TM ∣ M) (hN : TN ∣ N) :
    (launch_range (M : Int) (N : Int)).valid ↔ 0 < M ∧ 0 < N ∧ 16 * TN ∣ N := by
  have hTM : TM = 8 := rfl
  have hTN : TN = 16 := rfl
  rw [launch_range_natCast M N hM31 hN31]
  unfold nd_range.valid
  simp only [hTM, hTN] at hM hN ⊢
  constructor
  · rintro ⟨h1, h2, _, h4⟩
    refine ⟨by omega, by omega, by omega⟩
  · rintro ⟨h1, h2, h3⟩
    refine ⟨by omega, by omega, one_dvd _, by omega⟩

/-- A valid launch range has a work-group whose work-items compute different tile
origins: the work-items `(0, 0)` and `(0, 1)` are in group `(0, 0)`. -/
theorem launch_range_not_uniform (M N : Int) (h : (launch_range M N).valid) :
    ¬ (launch_range M N).uniform := by
  intro hu
  obtain ⟨h1, h2, _, h4⟩ := h
  have hl : (launch_range M N).local_size.2 = 16 := rfl
  rw [hl] at h4
  have h16 : 16 ≤ (launch_range M N).global_size.2 := Nat.le_of_dvd h2 h4
  have hg : (launch_range M N).group_of (0, 0) = (launch_range M N).group_of (0, 1) := by
    unfold nd_range.group_of launch_range
    simp
  have e := hu (0, 0) (mem_items.2 ⟨h1, h2⟩) (0, 1) (mem_items.2 ⟨h1, by omega⟩) hg
  revert e
  decide

/-- No shape makes the command of `xmx_gemm_kernel` complete: the range is refused, or
it is valid and a sub-group reaches the `joint_matrix` operations with different tile
origins. -/
theorem xmx_gemm_kernel_never_completes {D R : Type} [Zero R] [Add R] [Mul R]
    (q : queue D) (A B C : Int → R) (M N K : Int) (alpha beta : R) :
    xmx_gemm_kernel q A B C M N K alpha beta = launch_result.refused ∨
    xmx_gemm_kernel q A B C M N K alpha beta = launch_result.undefined := by
  unfold xmx_gemm_kernel
  by_cases hv : (launch_range M N).valid
  · right
    rw [if_neg (not_not.2 hv), if_pos (launch_range_not_uniform M N hv)]
  · left
    rw [if_pos hv]

/-- C2, evaluated. For `M = 8`, `N = 256` the launch is `nd_range((1, 16), (1, 16))`: it
is well formed, it has one work-group and not `(M/TM) * (N/TN) = 16`, and the sixteen
work-items of that group compute sixteen different tile origins. -/
theorem launch_range_groups_example :
    (launch_range 8 256).valid ∧
    (launch_range 8 256).groups = [(0, 0)] ∧
    (launch_range 8 256).groups.length ≠ (8 / TM) * (256 / TN) ∧
    ((launch_range 8 256).items_of (0, 0)).map tile_origin =
      [(0, 0), (0, 16), (0, 32), (0, 48), (0, 64), (0, 80), (0, 96), (0, 112),
       (0, 128), (0, 144), (0, 160), (0, 176), (0, 192), (0, 208), (0, 224), (0, 240)] := by
  decide

/-- C17, evaluated. For `M = 8`, `N = 16` (multiples of `TM`, `TN`; the single-tile
shape) the launch is `nd_range((1, 1), (1, 16))`: the global range is non-zero but its
second component is not a multiple of the local one, so the range is not valid. -/
theorem launch_range_single_tile_invalid :
    0 < 8 ∧ 0 < 16 ∧ TM ∣ 8 ∧ TN ∣ 16 ∧
    (launch_range 8 16).global_size = (1, 1) ∧
    (launch_range 8 16).local_size = (1, 16) ∧
    ¬ (launch_range 8 16).local_size.2 ∣ (launch_range 8 16).global_size.2 ∧
    ¬ (launch_range 8 16).valid := by
  decide

set_option maxRecDepth 100000 in
/-- C4, evaluated. For the divisible shape `M = 8`, `N = 16`, `K = 16` the launch
`nd_range((1, 1), (1, 16))` is refused whatever `A`, `B` and `C` are, so `C` keeps its
prior contents: from `C` all `7` element 0 is `7` after the call, from `C` all `-1` it
is `-1`.  The output depends on the prior contents of `C`. -/
theorem xmx_gemm_kernel_overwrite_fails :
    0 < 8 ∧ 0 < 16 ∧ TM ∣ 8 ∧ TN ∣ 16 ∧ TK ∣ 16 ∧
    (∀ A B C : Int → Int,
      xmx_gemm_kernel in_order_queue A B C 8 16 16 1 0 = launch_result.refused) ∧
    (xmx_gemm_kernel in_order_queue idA rampB (fun _ => 7) 8 16 16 1 0).read
        (fun _ => 7) 0 = some 7 ∧
    (xmx_gemm_kernel in_order_queue idA rampB (fun _ => -1) 8 16 16 1 0).read
        (fun _ => -1) 0 = some (-1) ∧
    (xmx_gemm_kernel in_order_queue idA rampB (fun _ => 7) 8 16 16 1 0).read
        (fun _ => 7) 0 ≠
      (xmx_gemm_kernel in_order_queue idA rampB (fun _ => -1) 8 16 16 1 0).read
        (fun _ => -1) 0 := by
  refine ⟨by decide, by decide, by decide, by decide, by decide, fun _ _ _ => rfl,
    by decide, by decide, by decide⟩

set_option maxRecDepth 100000 in
/-- C5, evaluated. With `alpha = 2`, `beta = 1`, the identity-like `A`, `B = rampB` and
`C` initially all `7` (shape 8×16×16): the launch is refused and leaves `C[0] = 7`; when
the body of the one global id runs it leaves `C[0] = 3 = (A·B)[0]`; whereas
`alpha * (A·B)[0] + beta * C0[0] = 13`. -/
theorem xmx_gemm_kernel_formula_fails :
    (xmx_gemm_kernel unit_queue idA rampB (fun _ => 7) 8 16 16 2 1).read
        (fun _ => 7) 0 = some 7 ∧
    (run_tiles idA rampB 16 16 (launch_range 8 16).items
        { C := fun _ => 7, log := [] }).map (fun run => run.C 0) = some 3 ∧
    (2 * ((Finset.range 16).sum fun t : Nat =>
        idA ((0 * 16 + t : Nat) : Int) * rampB ((t * 16 + 0 : Nat) : Int))
      + 1 * (fun _ => (7 : Int)) 0 = 13) ∧
    (7 : Int) ≠ 13 ∧ (3 : Int) ≠ 13 := by
  decide

/-- C6. The effect of `xmx_gemm_kernel` (whether the command runs, the contents of `C`
and every access made) is the same for any two pairs `(alpha1, beta1)`,
`(alpha2, beta2)`, whatever the queue, `A`, `B`, the initial `C` and the shape. -/
theorem xmx_gemm_kernel_ignores_alpha_beta {D R : Type} [Zero R] [Add R] [Mul R]
    (q : queue D) (A B C : Int → R) (M N K : Int) (alpha1 beta1 alpha2 beta2 : R) :
    xmx_gemm_kernel q A B C M N K alpha1 beta1 =
      xmx_gemm_kernel q A B C M N K alpha2 beta2 ∧
    ∀ i : Int, (xmx_gemm_kernel q A B C M N K alpha1 beta1).read C i =
      (xmx_gemm_kernel q A B C M N K alpha2 beta2).read C i :=
  ⟨rfl, fun _ => rfl⟩

set_option maxRecDepth 100000 in
/-- C10, evaluated. For `M = 8`, `N = 16`, `K = 16`, the identity-like `A`
(`A[i][j] = 1` if `i = j`, else `0`) and `B = rampB`, the launch of
`ggml_sycl_xmx_gemm` is `nd_range((1, 1), (1, 16))` and is refused: `C[0][0]` keeps its
prior value `7`, which is not `B[0][0] = 3`. -/
theorem ggml_sycl_xmx_gemm_identity_fails :
    (∀ i < 8, ∀ j < 16, idA ((i * 16 + j : Nat) : Int) = if i = j then 1 else 0) ∧
    (∀ A B C : Int → Int,
      ggml_sycl_xmx_gemm in_order_queue A B C 8 16 16 = launch_result.refused) ∧
    (ggml_sycl_xmx_gemm in_order_queue idA rampB (fun _ => 7) 8 16 16).read
        (fun _ => 7) 0 = some 7 ∧
    rampB 0 = 3 ∧
    (ggml_sycl_xmx_gemm in_order_queue idA rampB (fun _ => 7) 8 16 16).read
        (fun _ => 7) 0 ≠ some (rampB 0) := by
  refine ⟨by decide, fun _ _ _ => rfl, by decide, by decide, by decide⟩

set_option maxRecDepth 100000 in
/-- C11, evaluated. For `M = 8`, `N = 16`, `P = 16`, `K = 16` on a queue with the
`in_order` property: launch 1 (`A = idA`, `B = rampB`) is refused and leaves its output
buffer `C` as it was (all `0`), which is not `A·B` (`(A·B)[0][0] = 3`); launch 2 is
refused whatever its `A` input is and leaves `D[0][0]` at its prior value `0`, whereas
the chained reference product has `((A·B)·B2)[0][0] = 26104` for `B2 = rampB`. -/
theorem xmx_gemm_kernel_chained_fails :
    TM ∣ 8 ∧ TN ∣ 16 ∧ TK ∣ 16 ∧ TN ∣ 16 ∧
    queue_property.in_order ∈ in_order_queue.props ∧
    xmx_gemm_kernel in_order_queue idA rampB zerosM 8 16 16 1 0 = launch_result.refused ∧
    (xmx_gemm_kernel in_order_queue idA rampB zerosM 8 16 16 1 0).read zerosM 0 = some 0 ∧
    ((Finset.range 16).sum fun t : Nat =>
        idA ((0 * 16 + t : Nat) : Int) * rampB ((t * 16 + 0 : Nat) : Int)) = 3 ∧
    (∀ C1 : Int → Int,
      xmx_gemm_kernel in_order_queue C1 rampB zerosM 8 16 16 1 0 =
        launch_result.refused) ∧
    (xmx_gemm_kernel in_order_queue zerosM rampB zerosM 8 16 16 1 0).read zerosM 0
      = some 0 ∧
    ((Finset.range 16).sum fun u : Nat =>
        ((Finset.range 16).sum fun t : Nat =>
          idA ((0 * 16 + t : Nat) : Int) * rampB ((t * 16 + u : Nat) : Int))
        * rampB ((u * 16 + 0 : Nat) : Int)) = 26104 := by
  refine ⟨by decide, by decide, by decide, by decide, by decide, rfl, by decide,
    by decide, fun _ => rfl, by decide, by decide⟩

/-- C15. For every queue, buffers and `m`, `n`, `k` (no shape is rejected),
`ggml_sycl_xmx_gemm(q, vx, vy, vz, m, n, k)` has exactly the effect of
`xmx_gemm_kernel(q, x, y, z, m, n, k, 1, 0)` on the same buffers: the same outcome of
the launch, the same contents of `C` and the same accesses. -/
theorem ggml_sycl_xmx_gemm_eq_kernel {D R : Type} [Zero R] [One R] [Add R] [Mul R]
    (q : queue D) (vx vy vz : Int → R) (m n k : Int) :
    ggml_sycl_xmx_gemm q vx vy vz m n k = xmx_gemm_kernel q vx vy vz m n k 1 0 ∧
    ∀ i : Int, (ggml_sycl_xmx_gemm q vx vy vz m n k).read vz i =
      (xmx_gemm_kernel q vx vy vz m n k 1 0).read vz i :=
  ⟨rfl, fun _ => rfl⟩

end Xmx

/-! ## Queue creation: theorems -/

namespace xmx_kernels_fixed

open Xmx

theorem to_size_t_of_nonneg {x : Int} (h0 : 0 ≤ x) (h1 : x < 2 ^ 31) :
    to_size_t x = x.toNat := by
  unfold to_size_t
  rw [Int.emod_eq_of_lt h0 (by omega)]

theorem props_of_bind {D : Type} (o : Option D) (q : queue D)
    (h : (match o with
      | some device => some ({ device := device, props := xmx_prop_list } : queue D)
      | none => none) = some q) :
    q.props = [queue_property.immediate_command_list, queue_property.in_order] := by
  cases o with
  | none => cases h
  | some d =>
    cases h
    rfl

/-- C3, amended. For every non-empty device list and every `int` `device_id` that is at
least the number of devices, the call succeeds and the queue is bound to the device at
index 0 of the list. -/
theorem create_xmx_optimized_queue_fallback {D : Type} (devices : List D)
    (device_id : Int) (hne : devices ≠ []) (hint : is_int device_id)
    (hge : (devices.length : Int) ≤ device_id) :
    ∃ d, devices.get? 0 = some d ∧
      create_xmx_optimized_queue devices device_id =
        some { device := d, props := xmx_prop_list } := by
  cases devices with
  | nil => exact absurd rfl hne
  | cons d rest =>
    refine ⟨d, rfl, ?_⟩
    have h0 : 0 ≤ device_id := le_trans (Int.natCast_nonneg _) hge
    have hsz : to_size_t device_id = device_id.toNat := to_size_t_of_nonneg h0 hint.2
    have hcond : to_size_t device_id ≥ (d :: rest).length := by
      rw [hsz]
      omega
    unfold create_xmx_optimized_queue
    simp only [if_pos hcond]
    rfl

theorem create_xmx_optimized_queue_fallback_witness :
    ["gpu0", "gpu1"] ≠ [] ∧ is_int 5 ∧ ((["gpu0", "gpu1"].length : Int) ≤ 5) ∧
    ∃ d, ["gpu0", "gpu1"].get? 0 = some d ∧
      create_xmx_optimized_queue ["gpu0", "gpu1"] 5 =
        some { device := d, props := xmx_prop_list } :=
  ⟨by decide, by decide, by decide,
   create_xmx_optimized_queue_fallback ["gpu0", "gpu1"] 5 (by decide) (by decide)
     (by decide)⟩

/-- C3 as stated fails on the empty device list: `device_id = 0` is at least the number
of devices, the fallback index 0 is out of range, and no queue is returned. -/
theorem create_xmx_optimized_queue_empty :
    is_int 0 ∧ ((([] : List String).length : Int) ≤ 0) ∧
    create_xmx_optimized_queue ([] : List String) 0 = none := by
  decide

theorem get_some_of_lt {D : Type} (devices : List D) (n : Nat) (h : n < devices.length) :
    ∃ d, devices.get? n = some d := by
  induction devices generalizing n with
  | nil => simp at h
  | cons d rest ih =>
    cases n with
    | zero => exact ⟨d, rfl⟩
    | succ m => exact ih m (by simpa using h)

theorem to_size_t_of_neg {x : Int} (h0 : x < 0) (h1 : -2 ^ 31 ≤ x) :
    (to_size_t x : Int) = x + 2 ^ 64 := by
  unfold to_size_t
  have e : x % 2 ^ 64 = x + 2 ^ 64 := by
    rw [← Int.add_emod_self]
    exact Int.emod_eq_of_lt (by omega) (by omega)
  rw [e]
  exact Int.toNat_of_nonneg (by omega)

/-- The subscript after the guard is inside a non-empty list. -/
theorem subscript_index_lt {D : Type} (devices : List D) (device_id : Int)
    (hne : devices ≠ []) : subscript_index devices device_id < devices.length := by
  have hpos : 0 < devices.length := List.length_pos.2 hne
  unfold subscript_index
  by_cases h : to_size_t device_id ≥ devices.length
  · rw [if_pos h]
    exact hpos
  · rw [if_neg h]
    omega

/-- C18. For a non-empty device list (a `std::vector`, so of fewer than `2^63` elements)
and a negative `int` `device_id`: converted to the unsigned size type, `device_id` is
`device_id + 2^64`, the comparison `device_id >= devices.size()` is true and the queue is
bound to device 0.  For a non-empty list and any `device_id` the subscript used is below
`devices.size()` and a queue on that device is returned.  For the empty list the
subscript used is 0, which is out of range, and no queue is returned. -/
theorem create_xmx_optimized_queue_negative {D : Type} (devices : List D)
    (device_id : Int) (hne : devices ≠ []) (hlen : devices.length < 2 ^ 63)
    (hint : is_int device_id) (hneg : device_id < 0) :
    (to_size_t device_id : Int) = device_id + 2 ^ 64 ∧
    to_size_t device_id ≥ devices.length ∧
    subscript_index devices device_id = 0 ∧
    (∃ d, devices.get? 0 = some d ∧
      create_xmx_optimized_queue devices device_id =
        some { device := d, props := xmx_prop_list }) ∧
    (∀ id2 : Int, subscript_index devices id2 < devices.length ∧
      ∃ d, devices.get? (subscript_index devices id2) = some d ∧
        create_xmx_optimized_queue devices id2 =
          some { device := d, props := xmx_prop_list }) ∧
    (∀ id2 : Int, subscript_index ([] : List D) id2 = 0 ∧
      ([] : List D).get? (subscript_index ([] : List D) id2) = none ∧
      create_xmx_optimized_queue ([] : List D) id2 = none) := by
  have hconv := to_size_t_of_neg hneg hint.1
  have hge : to_size_t device_id ≥ devices.length := by
    have h1 : (devices.length : Int) < 2 ^ 63 := by exact_mod_cast hlen
    have h2 : (devices.length : Int) ≤ (to_size_t device_id : Int) := by
      rw [hconv]
      have := hint.1
      omega
    exact_mod_cast h2
  have hsub : subscript_index devices device_id = 0 := by
    unfold subscript_index
    rw [if_pos hge]
    rfl
  have hall : ∀ id2 : Int, subscript_index devices id2 < devices.length ∧
      ∃ d, devices.get? (subscript_index devices id2) = some d ∧
        create_xmx_optimized_queue devices id2 =
          some { device := d, props := xmx_prop_list } := by
    intro id2
    have hlt := subscript_index_lt devices id2 hne
    obtain ⟨d, hd⟩ := get_some_of_lt devices _ hlt
    refine ⟨hlt, d, hd, ?_⟩
    have hdef : create_xmx_optimized_queue devices id2 =
        match devices.get? (subscript_index devices id2) with
        | some device => some { device := device, props := xmx_prop_list }
        | none => none := rfl
    rw [hdef, hd]
  refine ⟨hconv, hge, hsub, ?_, hall, ?_⟩
  · obtain ⟨_, d, hd, hq⟩ := hall device_id
    rw [hsub] at hd
    exact ⟨d, hd, hq⟩
  · intro id2
    refine ⟨?_, rfl, rfl⟩
    unfold subscript_index
    rw [if_pos (show to_size_t id2 ≥ ([] : List D).length from Nat.zero_le _)]
    rfl

theorem create_xmx_optimized_queue_negative_witness :
    ["gpu0", "gpu1"] ≠ [] ∧ ["gpu0", "gpu1"].length < 2 ^ 63 ∧ is_int (-1) ∧
    (-1 : Int) < 0 ∧
    ((to_size_t (-1) : Int) = -1 + 2 ^ 64 ∧
     to_size_t (-1) ≥ ["gpu0", "gpu1"].length ∧
     ∃ d, ["gpu0", "gpu1"].get? 0 = some d ∧
       create_xmx_optimized_queue ["gpu0", "gpu1"] (-1) =
         some { device := d, props := xmx_prop_list }) :=
  ⟨by decide, by decide, by decide, by decide,
   (create_xmx_optimized_queue_negative ["gpu0", "gpu1"] (-1) (by decide) (by decide)
      (by decide) (by decide)).1,
   (create_xmx_optimized_queue_negative ["gpu0", "gpu1"] (-1) (by decide) (by decide)
      (by decide) (by decide)).2.1,
   (create_xmx_optimized_queue_negative ["gpu0", "gpu1"] (-1) (by decide) (by decide)
      (by decide) (by decide)).2.2.2.1⟩

/-- C9. For every device list and every `device_id`: the definition of
`xmx_kernels_fixed.hpp` returns a queue for every non-empty device list, the definition
of `ggml_sycl_queue_patch.cpp` returns one whenever `device_id` (converted to the
subscript type) is below the number of devices, and a queue returned by either
definition carries exactly the two properties `immediate_command_list` and `in_order`,
in particular no priority hint. -/
theorem create_xmx_optimized_queue_props {D : Type} (devices : List D) (device_id : Int) :
    (devices ≠ [] →
      ∃ q, create_xmx_optimized_queue devices device_id = some q ∧
        q.props = [queue_property.immediate_command_list, queue_property.in_order] ∧
        queue_property.priority_high ∉ q.props) ∧
    (to_size_t device_id < devices.length →
      ∃ q, ggml_sycl_queue_patch.create_xmx_optimized_queue devices device_id = some q ∧
        q.props = [queue_property.immediate_command_list, queue_property.in_order] ∧
        queue_property.priority_high ∉ q.props) ∧
    (∀ q : queue D,
      create_xmx_optimized_queue devices device_id = some q ∨
        ggml_sycl_queue_patch.create_xmx_optimized_queue devices device_id = some q →
      q.props = [queue_property.immediate_command_list, queue_property.in_order] ∧
      queue_property.priority_high ∉ q.props) := by
  have hp : ∀ q : queue D,
      create_xmx_optimized_queue devices device_id = some q ∨
        ggml_sycl_queue_patch.create_xmx_optimized_queue devices device_id = some q →
      q.props = [queue_property.immediate_command_list, queue_property.in_order] ∧
      queue_property.priority_high ∉ q.props := by
    intro q h
    have hq : q.props = [queue_property.immediate_command_list, queue_property.in_order] := by
      rcases h with h | h
      · exact props_of_bind _ q h
      · exact props_of_bind _ q h
    rw [hq]
    exact ⟨rfl, by decide⟩
  refine ⟨?_, ?_, hp⟩
  · intro hne
    obtain ⟨d, hd⟩ := get_some_of_lt devices _ (subscript_index_lt devices device_id hne)
    have hdef : create_xmx_optimized_queue devices device_id =
        match devices.get? (subscript_index devices device_id) with
        | some device => some { device := device, props := xmx_prop_list }
        | none => none := rfl
    have hq : create_xmx_optimized_queue devices device_id =
        some { device := d, props := xmx_prop_list } := by rw [hdef, hd]
    exact ⟨_, hq, hp _ (Or.inl hq)⟩
  · intro hlt
    obtain ⟨d, hd⟩ := get_some_of_lt devices _ hlt
    have hq : ggml_sycl_queue_patch.create_xmx_optimized_queue devices device_id =
        some { device := d, props := xmx_prop_list } := by
      unfold ggml_sycl_queue_patch.create_xmx_optimized_queue
      rw [hd]
    exact ⟨_, hq, hp _ (Or.inr hq)⟩

theorem create_xmx_optimized_queue_props_witness :
    ["gpu0", "gpu1"] ≠ [] ∧ to_size_t 1 < ["gpu0", "gpu1"].length ∧
    (∃ q, create_xmx_optimized_queue ["gpu0", "gpu1"] 1 = some q ∧
      q.props = [queue_property.immediate_command_list, queue_property.in_order] ∧
      queue_property.priority_high ∉ q.props) ∧
    (∃ q, ggml_sycl_queue_patch.create_xmx_optimized_queue ["gpu0", "gpu1"] 1 = some q ∧
      q.props = [queue_property.immediate_command_list, queue_property.in_order] ∧
      queue_property.priority_high ∉ q.props) :=
  ⟨by decide, by decide,
   (create_xmx_optimized_queue_props ["gpu0", "gpu1"] 1).1 (by decide),
   (create_xmx_optimized_queue_props ["gpu0", "gpu1"] 1).2.1 (by decide)⟩

/-- C16, evaluated. With two devices and `device_id = 5` the definition of
`xmx_kernels_fixed.hpp` resets the index and returns a queue on device 0, while the
definition of `ggml_sycl_queue_patch.cpp`, which has no such guard, subscripts the
device list out of range: the two definitions are not the same logic. -/
theorem create_xmx_optimized_queue_differ :
    create_xmx_optimized_queue ["gpu0", "gpu1"] 5 =
      some { device := "gpu0", props := xmx_prop_list } ∧
    ggml_sycl_queue_patch.create_xmx_optimized_queue ["gpu0", "gpu1"] 5 = none ∧
    create_xmx_optimized_queue ["gpu0", "gpu1"] 5 ≠
      ggml_sycl_queue_patch.create_xmx_optimized_queue ["gpu0", "gpu1"] 5 := by
  decide

end xmx_kernels_fixed
